import Mathlib

/-!
# Verification of the Gomoku decision engines

Shallow embedding of the repository's two decision engines — the
depth-bounded alpha-beta minimax engine (`src/minimax.py`, class
`GomokuAI`) and the time-bounded Monte-Carlo tree search engine
(`src/mcts.py`, classes `Node` and `MCTS`) — together with theorems
settling the specification claims about them.

Modelling conventions:
* Machine integers are `Int`/`Nat`; Python floats (pattern scores,
  the `1.1`/`0.1` weights, UCB values) are modelled as exact rationals
  `ℚ`.  No claim settled here depends on floating-point rounding.
* `float('-inf')`/`float('inf')` in the minimax search are modelled by
  `⊥`/`⊤` of `WithBot (WithTop ℚ)`.
* Python `while` loops over board rays and game playouts are modelled
  by structurally recursive functions with an explicit fuel argument;
  the fuel supplied at every call site strictly exceeds the number of
  iterations the corresponding Python loop can make (a ray leaves the
  board after at most `size` steps; a playout fills at least one cell
  per step), so the fuel-exhaustion branch is never the one taken on
  the boards the theorems evaluate.
* The wall clock consulted by `MCTS.get_move` is modelled by an
  explicit list of clock readings, one per evaluation of the
  `while time.time() < end_time` condition.
* The UCB1 child-selection key (`wins/visits + 1.414*sqrt(2*ln(parent
  visits)/visits)`) is computed with transcendental float functions in
  the source; all theorems about the search loop are proved for an
  arbitrary selection key `ucb`, hence in particular for UCB1.
* `board.copy()` produces an independent deep copy per the spec; in
  this pure embedding a copy is the value itself.
-/

/-! ## Board model

`Modelled from the spec:` the repository imports `from board import
Board`, but `board.py` is not among the source files; the `Board` class
is modelled here from spec §3 and §4.1: a square grid of side `size`
(N = 15) with cells in {-1, 0, 1}, a `current_player` flag, `apply`
(`make_move`) placing the current player's stone and flipping the
player, `valid_moves` returning all empty cells (the spec calls the
collection unordered; row-major order is fixed here), `check_win`
scanning the whole board for a five-or-more in-line run in the four
axis directions, and `is_terminal` (`is_game_over`) true iff there is
a winner or no empty cell is left.
-/

abbrev Move := Nat × Nat

structure Board where
  size : Nat
  grid : List (List Int)
  current_player : Int
deriving DecidableEq, Repr

namespace Board

/-- Raw cell read `board.board[i][j]` (callers check bounds first, as the
source does before each subscript). -/
def cellAt (b : Board) (i j : Int) : Int :=
  (b.grid.getD i.toNat []).getD j.toNat 0

/-- Whether `(i, j)` is inside the grid: `0 <= i < board.size and
0 <= j < board.size`. -/
def inBounds (b : Board) (i j : Int) : Bool :=
  0 ≤ i && i < (b.size : Int) && 0 ≤ j && j < (b.size : Int)

/-- Modelled from the spec: `valid_moves()` — all currently empty cells,
taken in row-major order. -/
def get_valid_moves (b : Board) : List Move :=
  (List.range b.size).flatMap fun (i : Nat) =>
    (List.range b.size).filterMap fun (j : Nat) =>
      if b.cellAt (i : Int) (j : Int) = 0 then some ((i, j) : Move) else none

/-- Modelled from the spec: `apply(move)` — place the current player's
stone at the move's cell and flip the current player. -/
def make_move (b : Board) (m : Move) : Board :=
  { b with
    grid := b.grid.set m.1 ((b.grid.getD m.1 []).set m.2 b.current_player)
    current_player := -b.current_player }

/-- Setting a single cell to an arbitrary stone without flipping the
player (the engines' `test_board.board[i][j] = player`). -/
def setCell (b : Board) (m : Move) (v : Int) : Board :=
  { b with
    grid := b.grid.set m.1 ((b.grid.getD m.1 []).set m.2 v) }

/-- The four axis directions `[(1,0), (0,1), (1,1), (1,-1)]` shared by
every scan in the source. -/
def directions : List (Int × Int) := [(1, 0), (0, 1), (1, 1), (1, -1)]

/-- Five consecutive cells starting at `(i, j)` in direction `(di, dj)`
all lie on the board and hold the same non-empty stone. -/
def fiveFrom (b : Board) (i j di dj : Int) : Bool :=
  let v := b.cellAt i j
  v ≠ 0 &&
    (List.range 5).all fun k =>
      b.inBounds (i + k * di) (j + k * dj) &&
      b.cellAt (i + k * di) (j + k * dj) = v

/-- Modelled from the spec: `check_win()` — return the player value of a
five-or-more in-line run found anywhere on the board (all four axis
directions), or `0` if there is none. -/
def check_win (b : Board) : Int :=
  let hits := (List.range b.size).flatMap fun i =>
    (List.range b.size).flatMap fun j =>
      directions.filterMap fun d =>
        if b.fiveFrom i j d.1 d.2 then some (b.cellAt i j) else none
  hits.headD 0

/-- Modelled from the spec: `is_terminal()` — true iff `check_win()`
found a winner or no empty cell remains. -/
def is_game_over (b : Board) : Bool :=
  b.check_win ≠ 0 || b.get_valid_moves.isEmpty

end Board

/-! ## List helpers modelling Python's stable `sort` -/

namespace PyList

variable {α β : Type} [LinearOrder β]

/-- Stable ascending insertion by a key into a linear order (the
comparison Python's `sorted` uses): the new element is placed after
every element of equal key and before the first strictly greater one,
which is exactly the stability contract of `sorted`. -/
def insortKey (key : α → β) (x : α) : List α → List α
  | [] => [x]
  | y :: ys => if key x < key y then x :: y :: ys else y :: insortKey key x ys

/-- Python's `sorted(l, key=key)`: stable, ascending. -/
def pySortedKey (key : α → β) (l : List α) : List α :=
  l.foldl (fun acc x => insortKey key x acc) []

/-- Stable descending insertion with respect to a strict comparison
`lt`: the new element is placed after every element it is not strictly
greater than, mirroring `list.sort(reverse=True)`. -/
def insortDescBy (lt : α → α → Bool) (x : α) : List α → List α
  | [] => [x]
  | y :: ys => if lt y x then x :: y :: ys else y :: insortDescBy lt x ys

/-- Python's `l.sort(reverse=True)` under a strict comparison `lt`:
stable, descending. -/
def pySortDescBy (lt : α → α → Bool) (l : List α) : List α :=
  l.foldl (fun acc x => insortDescBy lt x acc) []

end PyList

/-- Python's `<` on the `(score, (row, col))` tuples the move
generators sort: lexicographic on the score, then the coordinates. -/
def qmLt (a b : ℚ × Move) : Bool :=
  a.1 < b.1 ||
    (a.1 = b.1 &&
      (a.2.1 < b.2.1 || (a.2.1 = b.2.1 && a.2.2 < b.2.2)))

/-! ## The shared directional pattern scan -/

/-- Why a directional scanning loop stopped. -/
inductive StopReason where
  | edge | opponent | twoEmpty | gapStone | fuelOut
deriving DecidableEq, Repr

/-- One directional arm of the pattern scan that appears verbatim in
both `GomokuAI._get_pattern` and `Node._evaluate_line`: starting at
`(ni, nj)` and stepping by `(di, dj)`, walk while in bounds, counting
consecutive `player` stones and empty slack exactly as the Python
`while` loop does, and report why the walk stopped: it left the board
(`edge`), met an opponent stone (`opponent` — in the source the only
branch that executes `blocked += 1`), met a second empty cell
(`twoEmpty`), or met a `player` stone beyond a gap (`gapStone`).
Returns `(consecutive stones counted, final space, stop reason)`. -/
def walkDir (b : Board) (player di dj : Int) :
    Nat → Int → Int → Nat → Nat × Nat × StopReason
  | 0, _, _, space => (0, space, .fuelOut)
  | fuel + 1, ni, nj, space =>
    if ¬ b.inBounds ni nj then (0, space, .edge)
    else if b.cellAt ni nj = 0 then
      if space + 1 ≥ 2 then (0, space + 1, .twoEmpty)
      else walkDir b player di dj fuel (ni + di) (nj + dj) (space + 1)
    else if b.cellAt ni nj = player then
      if space = 0 then
        let r := walkDir b player di dj fuel (ni + di) (nj + dj) space
        (r.1 + 1, r.2.1, r.2.2)
      else (0, space, .gapStone)
    else (0, space, .opponent)

/-- One arm of the run-counting loop of the three `_is_winning_move`
variants: consecutive `player` stones from `(ni, nj)` onward in
direction `(di, dj)` while in bounds. -/
def countRun (b : Board) (player di dj : Int) : Nat → Int → Int → Nat
  | 0, _, _ => 0
  | fuel + 1, ni, nj =>
    if b.inBounds ni nj && b.cellAt ni nj = player then
      countRun b player di dj fuel (ni + di) (nj + dj) + 1
    else 0

/-! ## The minimax engine (`src/minimax.py`, class `GomokuAI`) -/

namespace GomokuAI

/-- `_get_pattern`: directional pattern `(consecutive, blocked, space)`
at anchor `(i, j)` in direction `(di, dj)` for `player`, combining the
backward and forward arms of the scan. -/
def _get_pattern (b : Board) (i j : Nat) (di dj : Int) (player : Int) :
    Nat × Nat × Nat :=
  let back := walkDir b player (-di) (-dj) (b.size + 1) (i - di) (j - dj) 0
  let fwd := walkDir b player di dj (b.size + 1) (i + di) (j + dj) 0
  (1 + back.1 + fwd.1,
   (if back.2.2 = .opponent then 1 else 0) +
     (if fwd.2.2 = .opponent then 1 else 0),
   back.2.1 + fwd.2.1)

/-- `_get_pattern_score` with the `pattern_scores` table inlined
(win5 100000, alive4 10000, rush4 5000, alive3 1000, sleep3 500,
alive2 100, sleep2 50, alive1 10). -/
def _get_pattern_score : Nat × Nat × Nat → ℚ
  | (consecutive, blocked, _) =>
    if consecutive ≥ 5 then 100000
    else if consecutive = 4 then
      if blocked = 0 then 10000 else if blocked = 1 then 5000 else 0
    else if consecutive = 3 then
      if blocked = 0 then 1000 else if blocked = 1 then 500 else 0
    else if consecutive = 2 then
      if blocked = 0 then 100 else if blocked = 1 then 50 else 0
    else if consecutive = 1 then
      if blocked = 0 then 10 else 0
    else 0

/-- `_has_neighbor`: some cell of the 8-neighborhood of `(i, j)` is on
the board and occupied. -/
def _has_neighbor (b : Board) (i j : Nat) : Bool :=
  ([-1, 0, 1] : List Int).any fun di =>
    ([-1, 0, 1] : List Int).any fun dj =>
      if di = 0 && dj = 0 then false
      else
        b.inBounds ((i : Int) + di) ((j : Int) + dj) &&
          b.cellAt ((i : Int) + di) ((j : Int) + dj) ≠ 0

/-- `_is_winning_move`: placing `player` at `move` yields a run of five
or more through that cell in some axis direction. -/
def _is_winning_move (b : Board) (m : Move) (player : Int) : Bool :=
  let tb := b.setCell m player
  Board.directions.any fun d =>
    1 + countRun tb player d.1 d.2 (b.size + 1)
          ((m.1 : Int) + d.1) ((m.2 : Int) + d.2)
      + countRun tb player (-d.1) (-d.2) (b.size + 1)
          ((m.1 : Int) - d.1) ((m.2 : Int) - d.2) ≥ 5

/-- The body of `_evaluate_board` with the perspective player made
explicit: sum over all occupied cells and the four directions, adding
the mover's pattern scores and subtracting `1.1` times the opponent's.
`_evaluate_board` itself instantiates `player` with the board's
`current_player` (the player to move on the evaluated board). -/
def evalForPlayer (b : Board) (player : Int) : ℚ :=
  ((List.range b.size).map fun (i : Nat) =>
    ((List.range b.size).map fun (j : Nat) =>
      if b.cellAt (i : Int) (j : Int) ≠ 0 then
        (Board.directions.map fun d =>
          if b.cellAt (i : Int) (j : Int) = player then
            _get_pattern_score (_get_pattern b i j d.1 d.2 player)
          else
            -(_get_pattern_score (_get_pattern b i j d.1 d.2 (-player)) *
                (11 / 10))).sum
      else 0).sum).sum

/-- `_evaluate_board`: static whole-board evaluation; the perspective
is `board.current_player`, i.e. the player to move on this board. -/
def _evaluate_board (b : Board) : ℚ := evalForPlayer b b.current_player

/-- `_evaluate_direction_all`: pattern score of `(i, j)` summed over
the four directions. -/
def _evaluate_direction_all (b : Board) (i j : Nat) (player : Int) : ℚ :=
  (Board.directions.map fun d =>
    _get_pattern_score (_get_pattern b i j d.1 d.2 player)).sum

/-- `_evaluate_move`: attack score of placing the mover at the cell,
plus `1.1` times the defense score of the opponent owning it, minus
ten times the Manhattan distance to the board center. -/
def _evaluate_move (b : Board) (m : Move) : ℚ :=
  let player := b.current_player
  let tb1 := b.setCell m player
  let attack := _evaluate_direction_all tb1 m.1 m.2 player
  let tb2 := tb1.setCell m (-player)
  let defense := _evaluate_direction_all tb2 m.1 m.2 (-player)
  let center : Int := (b.size : Int) / 2
  let dist : Int := |(m.1 : Int) - center| + |(m.2 : Int) - center|
  attack + defense * (11 / 10) - (dist : ℚ) * 10

/-- `_get_valid_moves`: the center alone on an empty board, otherwise
every empty cell with an occupied 8-neighbor, scored by
`_evaluate_move`, sorted descending by `(score, move)` and truncated
to the best 15. -/
def _get_valid_moves (b : Board) : List Move :=
  if b.get_valid_moves.length = b.size * b.size then
    [(b.size / 2, b.size / 2)]
  else
    let moves := (List.range b.size).flatMap fun (i : Nat) =>
      (List.range b.size).filterMap fun (j : Nat) =>
        if b.cellAt (i : Int) (j : Int) = 0 && _has_neighbor b i j then
          some (_evaluate_move b (i, j), ((i, j) : Move))
        else none
    ((PyList.pySortDescBy qmLt moves).take 15).map Prod.snd

/-- Scores in the search: a rational evaluation, or the
`float('-inf')`/`float('inf')` sentinels. -/
abbrev Score := WithBot (WithTop ℚ)

/-- Embed an evaluation into `Score`. -/
def Score.ofQ (q : ℚ) : Score := ((q : WithTop ℚ) : Score)

/-- The maximizing arm of `_minimax`'s move loop: fold over the
candidates keeping the running maximum and alpha, breaking out of the
loop as soon as `beta <= alpha`. `rec` is the recursive search one
ply deeper. -/
def abMaxLoop (rec : Board → Score → Score → Score) (b : Board) (β : Score) :
    List Move → Score → Score → Score
  | [], maxEval, _ => maxEval
  | mv :: rest, maxEval, α =>
    let e := rec (b.make_move mv) α β
    let maxEval' := max maxEval e
    let α' := max α e
    if β ≤ α' then maxEval' else abMaxLoop rec b β rest maxEval' α'

/-- The minimizing arm of `_minimax`'s move loop. -/
def abMinLoop (rec : Board → Score → Score → Score) (b : Board) (α : Score) :
    List Move → Score → Score → Score
  | [], minEval, _ => minEval
  | mv :: rest, minEval, β =>
    let e := rec (b.make_move mv) α β
    let minEval' := min minEval e
    let β' := min β e
    if β' ≤ α then minEval' else abMinLoop rec b α rest minEval' β'

/-- `_minimax`: depth-bounded alpha-beta search.  At a leaf (depth 0 or
terminal board) it returns `_evaluate_board`. -/
def _minimax : Board → Nat → Bool → Score → Score → Score
  | b, 0, _, _, _ => Score.ofQ (_evaluate_board b)
  | b, depth + 1, isMax, α, β =>
    if b.is_game_over then Score.ofQ (_evaluate_board b)
    else
      let valid := _get_valid_moves b
      if isMax then
        abMaxLoop (fun b' α' β' => _minimax b' depth false α' β') b β valid ⊥ α
      else
        abMinLoop (fun b' α' β' => _minimax b' depth true α' β') b α valid ⊤ β

/-- The root loop of `get_move`: evaluate each candidate with the
minimizing search one ply deeper, keep the strictly best score and its
move, and maintain alpha. -/
def rootLoop (b : Board) (max_depth : Nat) :
    List Move → Option Move → Score → Score → Option Move
  | [], best_move, _, _ => best_move
  | mv :: rest, best_move, best_score, α =>
    let score := _minimax (b.make_move mv) (max_depth - 1) false α ⊤
    let p := if best_score < score then (some mv, score) else (best_move, best_score)
    rootLoop b max_depth rest p.1 p.2 (max α p.2)

/-- `GomokuAI.get_move`: no candidates → `None`; a whole-board-sized
candidate list → the center; otherwise the first immediately winning
candidate for the mover, else the first immediately winning candidate
of the opponent (the block), else the alpha-beta root loop. -/
def get_move (max_depth : Nat) (b : Board) : Option Move :=
  let valid_moves := _get_valid_moves b
  if valid_moves.isEmpty then none
  else if valid_moves.length = b.size * b.size then
    some (b.size / 2, b.size / 2)
  else
    match valid_moves.find? (fun m => _is_winning_move b m b.current_player) with
    | some m => some m
    | none =>
      match valid_moves.find? (fun m => _is_winning_move b m (-b.current_player)) with
      | some m => some m
      | none => rootLoop b max_depth valid_moves none ⊥ ⊥

end GomokuAI

/-! ## The MCTS engine (`src/mcts.py`, classes `Node` and `MCTS`) -/

/-- An explicit MCTS tree node: the board snapshot, the move that led
here (`None` at the root), the child list, the win/visit statistics
and the untried-move list.  The parent back-reference of the source is
represented positionally: a node is addressed by its index path from
the root, and backpropagation walks that path. -/
inductive Node where
  | mk (board : Board) (move : Option Move) (children : List Node)
      (wins : ℚ) (visits : Nat) (untried_moves : List Move)

namespace Node

def board : Node → Board
  | mk b _ _ _ _ _ => b

def move : Node → Option Move
  | mk _ m _ _ _ _ => m

def children : Node → List Node
  | mk _ _ c _ _ _ => c

def wins : Node → ℚ
  | mk _ _ _ w _ _ => w

def visits : Node → Nat
  | mk _ _ _ _ v _ => v

def untried_moves : Node → List Move
  | mk _ _ _ _ _ u => u

instance : Inhabited Node :=
  ⟨mk { size := 0, grid := [], current_player := 1 } none [] 0 0 []⟩

/-- `Node._is_winning_move`: textually the same check as
`GomokuAI._is_winning_move`. -/
def _is_winning_move (b : Board) (m : Move) (player : Int) : Bool :=
  let tb := b.setCell m player
  Board.directions.any fun d =>
    1 + countRun tb player d.1 d.2 (b.size + 1)
          ((m.1 : Int) + d.1) ((m.2 : Int) + d.2)
      + countRun tb player (-d.1) (-d.2) (b.size + 1)
          ((m.1 : Int) - d.1) ((m.2 : Int) - d.2) ≥ 5

/-- `Node._evaluate_line`: the same directional scan as
`GomokuAI._get_pattern`, with its own inline score table and a base
score of 100 for every shape the table does not name. -/
def _evaluate_line (b : Board) (i j : Nat) (di dj : Int) (player : Int) : ℚ :=
  let back := walkDir b player (-di) (-dj) (b.size + 1) (i - di) (j - dj) 0
  let fwd := walkDir b player di dj (b.size + 1) (i + di) (j + dj) 0
  let consecutive := 1 + back.1 + fwd.1
  let blocked :=
    (if back.2.2 = .opponent then 1 else 0) +
      (if fwd.2.2 = .opponent then 1 else 0)
  if consecutive ≥ 5 then 100000
  else if consecutive = 4 then
    if blocked = 0 then 50000 else if blocked = 1 then 10000 else 100
  else if consecutive = 3 then
    if blocked = 0 then 8000 else if blocked = 1 then 3000 else 100
  else if consecutive = 2 then
    if blocked = 0 then 1000 else if blocked = 1 then 300 else 100
  else 100

/-- `Node._get_min_distance_to_pieces`: minimum Manhattan distance from
the move to an occupied cell within the surrounding 5×5 window, or
`none` for the source's `float('inf')` when the window is empty. -/
def _get_min_distance_to_pieces (b : Board) (m : Move) : Option Nat :=
  let i := m.1
  let j := m.2
  let ds := (List.range' (i - 2) (min b.size (i + 3) - (i - 2))).flatMap
    fun (x : Nat) =>
      (List.range' (j - 2) (min b.size (j + 3) - (j - 2))).filterMap
        fun (y : Nat) =>
          if b.cellAt (x : Int) (y : Int) ≠ 0 then
            some ((|(x : Int) - (i : Int)| + |(y : Int) - (j : Int)|).toNat)
          else none
  ds.foldl (fun acc d => match acc with
    | none => some d
    | some a => some (min a d)) none

/-- `Node._evaluate_move`: per-direction attack score on the board with
the mover's stone placed, plus `1.1` times the opponent's line score on
the unmodified board, minus the centrality penalty; multiplied by `0.1`
when the nearest stone lies outside Manhattan distance 2. -/
def _evaluate_move (b : Board) (m : Move) : ℚ :=
  let player := b.current_player
  let tb := b.setCell m player
  let base := (Board.directions.map fun d =>
    _evaluate_line tb m.1 m.2 d.1 d.2 player +
      _evaluate_line b m.1 m.2 d.1 d.2 (-player) * (11 / 10)).sum
  let center : Int := (b.size : Int) / 2
  let dist : Int := |(m.1 : Int) - center| + |(m.2 : Int) - center|
  let score := base - (dist : ℚ) * 10
  match _get_min_distance_to_pieces b m with
  | none => score * (1 / 10)
  | some d => if 2 < d then score * (1 / 10) else score

/-- The classifying loop of `_get_sorted_moves`: first winning move (if
any) short-circuits; blocking moves are collected as critical; the
rest are scored and split at 5000 into high-priority and normal. -/
def scanMoves (b : Board) :
    List Move → List Move → List (ℚ × Move) → List (ℚ × Move) →
      Option Move × List Move × List (ℚ × Move) × List (ℚ × Move)
  | [], critical, high, normal => (none, critical, high, normal)
  | m :: rest, critical, high, normal =>
    if _is_winning_move b m b.current_player then (some m, critical, high, normal)
    else if _is_winning_move b m (-b.current_player) then
      scanMoves b rest (critical ++ [m]) high normal
    else
      if _evaluate_move b m ≥ 5000 then
        scanMoves b rest critical (high ++ [(_evaluate_move b m, m)]) normal
      else scanMoves b rest critical high (normal ++ [(_evaluate_move b m, m)])

/-- `Node._get_sorted_moves`: `[]` with no valid moves; the center alone
on an empty board; a single immediately winning move if one exists;
else all blocking moves if any exist; else high-priority then normal
moves, each sorted descending, truncated to 10. -/
def _get_sorted_moves (b : Board) : List Move :=
  let valid := b.get_valid_moves
  if valid.isEmpty then []
  else if valid.length = b.size * b.size then [(b.size / 2, b.size / 2)]
  else
    match scanMoves b valid [] [] [] with
    | (some m, _, _, _) => [m]
    | (none, critical, high, normal) =>
      if !critical.isEmpty then critical
      else
        ((PyList.pySortDescBy qmLt high).map Prod.snd ++
          (PyList.pySortDescBy qmLt normal).map Prod.snd).take 10

/-- `Node.__init__` (the parent pointer is positional, see `Node`). -/
def new (b : Board) (mv : Option Move) : Node :=
  mk b mv [] 0 0 (_get_sorted_moves b)

/-- `Node.update`: one backpropagation step at this node. -/
def update (n : Node) (result : ℚ) : Node :=
  mk n.board n.move n.children (n.wins + result) (n.visits + 1) n.untried_moves

/-- `Node.add_child`: clone the board, apply the move, append the new
child and drop the move from the untried list. -/
def add_child (n : Node) (mv : Move) : Node :=
  let child := new (n.board.make_move mv) (some mv)
  mk n.board n.move (n.children ++ [child]) n.wins n.visits
    (n.untried_moves.erase mv)

/-- `Node.select_child` as an index: `sorted(children, key=ucb)[-1]`,
i.e. the last child of the stable ascending sort by the selection key —
the latest inserted among those maximizing the key.  The key is a
parameter (see the UCB1 modelling note in the file header). -/
def selectChildIdx (key : Node → ℚ) (children : List Node) : Nat :=
  ((PyList.pySortedKey (fun p => key p.2) children.enum).getLast?.map
    Prod.fst).getD 0

end Node

/-- Address-based tree navigation: the node reached by following the
child indices in `path` (the functional image of following child
references downward / parent references upward). -/
def Node.nodeAt : Node → List Nat → Node
  | n, [] => n
  | n, i :: rest => Node.nodeAt (n.children.getD i default) rest

/-- Apply `f` to the node at the end of `path`, leaving everything else
unchanged. -/
def Node.modifyAt (f : Node → Node) : Node → List Nat → Node
  | n, [] => f n
  | n, i :: rest =>
    Node.mk n.board n.move
      (n.children.set i (Node.modifyAt f (n.children.getD i default) rest))
      n.wins n.visits n.untried_moves

/-- Apply `f` to every node along `path` from the root down to and
including the node at the end of the path: the functional image of
the `while node is not None: node.update(...); node = node.parent`
backpropagation walk. -/
def Node.updatePath (f : Node → Node) : Node → List Nat → Node
  | n, [] => f n
  | n, i :: rest =>
    let n' := f n
    Node.mk n'.board n'.move
      (n'.children.set i (Node.updatePath f (n'.children.getD i default) rest))
      n'.wins n'.visits n'.untried_moves

/-- The Selection phase: starting from the root, while the node has no
untried moves and has children, descend to `select_child`'s pick;
returns the index path of the descent.  The fuel bounds the descent
depth; every call supplies more fuel than the tree is deep. -/
def Node.selectPath (key : Node → Node → ℚ) : Nat → Node → List Nat
  | 0, _ => []
  | fuel + 1, n =>
    if n.untried_moves.isEmpty && !n.children.isEmpty then
      let i := Node.selectChildIdx (key n) n.children
      i :: Node.selectPath key fuel (n.children.getD i default)
    else []

/-- The Expansion step at the selected node: pop the head untried move
(the highest-priority one) and attach the child it leads to. -/
def Node.expandF (n : Node) : Node :=
  match n.untried_moves with
  | [] => n
  | mv :: _ => n.add_child mv

/-- One node's share of the Backpropagation phase: `update(0.5)` on a
drawn rollout, else `update(1)` when the rollout winner equals the
`current_player` captured from the expanded node's board, else
`update(0)`. -/
def Node.applyBackprop (result cp : Int) (n : Node) : Node :=
  if result = 0 then n.update (1 / 2)
  else if result = cp then n.update 1
  else n.update 0

namespace MCTS

/-- `MCTS._is_winning_move`: the run check of the rollout, for the
mover or (`check_opponent`) for the opponent. -/
def _is_winning_move (b : Board) (m : Move) (check_opponent : Bool) : Bool :=
  let player := if check_opponent then -b.current_player else b.current_player
  let tb := b.setCell m player
  Board.directions.any fun d =>
    1 + countRun tb player d.1 d.2 (b.size + 1)
          ((m.1 : Int) + d.1) ((m.2 : Int) + d.2)
      + countRun tb player (-d.1) (-d.2) (b.size + 1)
          ((m.1 : Int) - d.1) ((m.2 : Int) - d.2) ≥ 5

/-- `MCTS._quick_evaluate_move`: the cheap rollout heuristic.  Unlike
the other two scans, the counters are shared between the two arms of
each direction (`space` left by the `+1` arm carries into the `-1`
arm), exactly as in the source's single-pass loop. -/
def _quick_evaluate_move (b : Board) (m : Move) : ℚ :=
  let player := b.current_player
  (Board.directions.map fun d =>
    let arm1 := walkDir b player d.1 d.2 (b.size + 1)
      ((m.1 : Int) + d.1) ((m.2 : Int) + d.2) 0
    let arm2 := walkDir b player (-d.1) (-d.2) (b.size + 1)
      ((m.1 : Int) - d.1) ((m.2 : Int) - d.2) arm1.2.1
    let consecutive := 1 + arm1.1 + arm2.1
    let blocked :=
      (if arm1.2.2 = .opponent then 1 else 0) +
        (if arm2.2.2 = .opponent then 1 else 0)
    if consecutive ≥ 5 then (100000 : ℚ)
    else if consecutive = 4 then
      if blocked = 0 then 50000 else if blocked = 1 then 10000 else 0
    else if consecutive = 3 then
      if blocked = 0 then 5000 else if blocked = 1 then 1000 else 0
    else if consecutive = 2 then
      if blocked = 0 then 500 else if blocked = 1 then 100 else 0
    else 0).sum

/-- The win/block scan over the rollout's 6-move window: the first
immediately winning move short-circuits; otherwise the *last* blocking
move seen is remembered (the source assigns `blocking_move = move`
without breaking). -/
def scanWinBlock (bs : Board) : List Move → Option Move → Option Move × Option Move
  | [], blocking => (none, blocking)
  | m :: rest, blocking =>
    if _is_winning_move bs m false then (some m, blocking)
    else if _is_winning_move bs m true then scanWinBlock bs rest (some m)
    else scanWinBlock bs rest blocking

/-- The Simulation (rollout) loop: until the board is terminal, play
the winning move if one exists in the first six valid moves, else the
blocking move if one exists there, else the `_quick_evaluate_move`
argmax of that window (ties impossible: distinct moves give distinct
sort keys). -/
def simLoop : Nat → Board → Board
  | 0, bs => bs
  | fuel + 1, bs =>
    if bs.is_game_over then bs
    else
      let moves := bs.get_valid_moves
      if moves.isEmpty then bs
      else
        let window := moves.take 6
        let wb := scanWinBlock bs window none
        let chosen :=
          match wb.1 with
          | some w => w
          | none =>
            match wb.2 with
            | some bl => bl
            | none =>
              let scored := window.map fun m => (_quick_evaluate_move bs m, m)
              ((PyList.pySortDescBy qmLt scored).headD (0, (0, 0))).2
        simLoop fuel (bs.make_move chosen)

/-- The record of one search iteration: the updated tree plus the
quantities the analysis refers to — the rollout result (`check_win` of
the terminal rollout board), the `current_player` captured from the
expanded node's board before the rollout, and the backpropagation
path. -/
structure IterOut where
  tree : Node
  result : Int
  cp : Int
  path : List Nat

/-- One Selection → Expansion → Simulation → Backpropagation iteration
of `MCTS.get_move`'s search loop. -/
def iterate (key : Node → Node → ℚ) (root : Node) : IterOut :=
  let selFuel := root.board.size * root.board.size + 1
  let path := Node.selectPath key selFuel root
  let target := Node.nodeAt root path
  let expanded := !target.untried_moves.isEmpty
  let root' := if expanded then Node.modifyAt Node.expandF root path else root
  let fullPath := if expanded then path ++ [target.children.length] else path
  let node := Node.nodeAt root' fullPath
  let board_state := node.board
  let current_player := board_state.current_player
  let finalBoard := simLoop (board_state.size * board_state.size + 1) board_state
  let result := finalBoard.check_win
  { tree := Node.updatePath (Node.applyBackprop result current_player) root' fullPath
    result := result
    cp := current_player
    path := fullPath }

/-- The time-boxed search loop: one clock reading is consumed per
evaluation of `while time.time() < end_time`; the loop body runs while
the reading is below `end_time`. -/
def mctsLoop (key : Node → Node → ℚ) (end_time : ℚ) : List ℚ → Node → Node
  | [], root => root
  | t :: ts, root =>
    if t < end_time then mctsLoop key end_time ts (iterate key root).tree
    else root

end MCTS

/-- The outcome of a Python call that either returns a value or raises. -/
inductive PyResult where
  | ret (m : Option Move)
  | exn
deriving DecidableEq, Repr

/-- `MCTS.__init__`: the wall-clock budget and the maximum simulation
count (stored by `__init__`; `get_move`'s loop reads only the clock). -/
structure MCTS where
  time_limit : ℚ := 5
  max_moves : Nat := 1000

/-- `MCTS.get_move`: build the root, return at once any untried root
move that wins for the mover or for the opponent, otherwise run the
time-boxed search loop and return the move of
`sorted(root.children, key=visits)[-1]`; with no children that
subscript raises (`PyResult.exn`). -/
def MCTS.get_move (cfg : MCTS) (key : Node → Node → ℚ) (start : ℚ)
    (clock : List ℚ) (b : Board) : PyResult :=
  let root := Node.new b none
  match root.untried_moves.find? (fun m =>
      Node._is_winning_move b m b.current_player ||
        Node._is_winning_move b m (-b.current_player)) with
  | some m => .ret (some m)
  | none =>
    let end_time := start + cfg.time_limit
    let root' := MCTS.mctsLoop key end_time clock root
    match (PyList.pySortedKey (fun c => c.visits) root'.children).getLast? with
    | none => .exn
    | some c => .ret c.move

/-! ## Concrete boards used by the witnesses and counterexamples -/

/-- An `n × n` grid of empty cells. -/
def emptyGrid (n : Nat) : List (List Int) :=
  List.replicate n (List.replicate n 0)

/-- Place one stone on a grid. -/
def placeStone (g : List (List Int)) (i j : Nat) (v : Int) : List (List Int) :=
  g.set i ((g.getD i []).set j v)

/-- A board from a stone list. -/
def mkBoard (size : Nat) (cp : Int) (stones : List (Nat × Nat × Int)) : Board :=
  { size := size
    grid := stones.foldl (fun g s => placeStone g s.1 s.2.1 s.2.2) (emptyGrid size)
    current_player := cp }

/-- A board from a cell-valued function (for dense positions). -/
def mkBoardF (size : Nat) (cp : Int) (f : Nat → Nat → Int) : Board :=
  { size := size
    grid := (List.range size).map fun i => (List.range size).map fun j => f i j
    current_player := cp }

/-! ## C5: how the scan assigns blocked ends -/

/-- The blocked-end count asserted by claim C5: one per extension end
whose walk stopped at an opponent stone **or at the board edge**
(the spec's definition of an obstructed end). -/
def claimBlockedEnds (b : Board) (i j : Nat) (di dj p : Int) : Nat :=
  let back := walkDir b p (-di) (-dj) (b.size + 1) (i - di) (j - dj) 0
  let fwd := walkDir b p di dj (b.size + 1) (i + di) (j + dj) 0
  (if back.2.2 = .opponent ∨ back.2.2 = .edge then 1 else 0) +
    (if fwd.2.2 = .opponent ∨ fwd.2.2 = .edge then 1 else 0)

/-- A lone stone in the corner: the backward walk of the vertical scan
leaves the board at once. -/
def cornerBoard : Board := mkBoard 15 1 [(0, 0, 1)]

/-- When the walk stops with reason `opponent`, some cell on the walked
ray is in bounds, occupied, and not the scanned player's. -/
theorem walkDir_opponent_ray (b : Board) (p di dj : Int) :
    ∀ (fuel : Nat) (ni nj : Int) (space : Nat),
      (walkDir b p di dj fuel ni nj space).2.2 = StopReason.opponent →
      ∃ k : Nat, b.inBounds (ni + k * di) (nj + k * dj) ∧
        b.cellAt (ni + k * di) (nj + k * dj) ≠ 0 ∧
        b.cellAt (ni + k * di) (nj + k * dj) ≠ p := by
  intro fuel
  induction fuel with
  | zero => intro ni nj space h; simp [walkDir] at h
  | succ fuel ih =>
    intro ni nj space h
    rw [walkDir] at h
    by_cases hb : b.inBounds ni nj
    · simp only [hb, not_true_eq_false, if_neg, if_false] at h
      by_cases h0 : b.cellAt ni nj = 0
      · simp only [h0, if_true, if_pos] at h
        by_cases hsp : space + 1 ≥ 2
        · simp [hsp] at h
        · simp only [hsp, if_neg, if_false] at h
          obtain ⟨k, hk⟩ := ih (ni + di) (nj + dj) (space + 1) h
          refine ⟨k + 1, ?_⟩
          have e1 : ni + di + k * di = ni + (k + 1 : Nat) * di := by push_cast; ring
          have e2 : nj + dj + k * dj = nj + (k + 1 : Nat) * dj := by push_cast; ring
          rwa [e1, e2] at hk
      · simp only [h0, if_neg, if_false] at h
        by_cases hp : b.cellAt ni nj = p
        · simp only [hp, if_true, if_pos] at h
          by_cases hsp : space = 0
          · simp only [hsp, if_true, if_pos] at h
            obtain ⟨k, hk⟩ := ih (ni + di) (nj + dj) 0 h
            refine ⟨k + 1, ?_⟩
            have e1 : ni + di + k * di = ni + (k + 1 : Nat) * di := by push_cast; ring
            have e2 : nj + dj + k * dj = nj + (k + 1 : Nat) * dj := by push_cast; ring
            rwa [e1, e2] at hk
          · simp [hsp] at h
        · refine ⟨0, ?_⟩
          simp only [Nat.cast_zero, zero_mul, add_zero]
          exact ⟨hb, h0, hp⟩
    · simp [hb] at h

/-- One step of the walk from an off-board start stops with reason
`edge`. -/
theorem walkDir_edge_of_out (b : Board) (p di dj : Int) (fuel : Nat)
    (ni nj : Int) (space : Nat) (h : ¬ b.inBounds ni nj) :
    walkDir b p di dj (fuel + 1) ni nj space = (0, space, StopReason.edge) := by
  rw [walkDir]; simp [h]

/-- C5, corrected: `_get_pattern` marks an end blocked exactly when
that end's walk stopped at an opponent stone (an in-bounds cell
holding the other player's stone somewhere on the walked ray); a walk
that stops at the board edge — in particular one whose very first
step is already off the board — contributes nothing to the blocked
count, contrary to the claim's "or at the board edge". -/
theorem getPattern_blocked_opponent_only (b : Board) (i j : Nat) (di dj p : Int) :
    ((GomokuAI._get_pattern b i j di dj p).2.1 =
      (if (walkDir b p (-di) (-dj) (b.size + 1) (i - di) (j - dj) 0).2.2 =
          StopReason.opponent then 1 else 0) +
        (if (walkDir b p di dj (b.size + 1) (i + di) (j + dj) 0).2.2 =
          StopReason.opponent then 1 else 0)) ∧
    (∀ fuel (ni nj : Int) (space : Nat),
      (walkDir b p di dj fuel ni nj space).2.2 = StopReason.opponent →
      ∃ k : Nat, b.inBounds (ni + k * di) (nj + k * dj) ∧
        b.cellAt (ni + k * di) (nj + k * dj) ≠ 0 ∧
        b.cellAt (ni + k * di) (nj + k * dj) ≠ p) ∧
    (∀ fuel (ni nj : Int) (space : Nat), ¬ b.inBounds ni nj →
      (walkDir b p di dj (fuel + 1) ni nj space).2.2 = StopReason.edge) := by
  refine ⟨rfl, walkDir_opponent_ray b p di dj, ?_⟩
  intro fuel ni nj space h
  rw [walkDir_edge_of_out b p di dj fuel ni nj space h]

/-- C5 as stated is false on the code: for the corner stone's vertical
scan the backward end stops at the board edge, the claim therefore
asserts one blocked end, but `_get_pattern` reports zero blocked ends
(and classifies the run as open). -/
theorem getPattern_corner_refutes_edge_blocking :
    GomokuAI._get_pattern cornerBoard 0 0 1 0 1 = (1, 0, 2) ∧
    claimBlockedEnds cornerBoard 0 0 1 0 1 = 1 ∧
    (walkDir cornerBoard 1 (-1) (-0) (cornerBoard.size + 1)
      ((0 : Nat) - (1 : Int)) ((0 : Nat) - (0 : Int)) 0).2.2 = StopReason.edge := by
  decide

/-! ## C3: the perspective of the leaf evaluation -/

/-- C3, corrected: at a leaf of the search (remaining depth 0 or a
terminal board) `_minimax` returns the static evaluation taken from
the perspective of the player to move *on the leaf board* —
`_evaluate_board` reads `board.current_player` — not from the
perspective of the root mover; the two coincide only at even ply
parity from the root. -/
theorem minimax_leaf_eval_is_leaf_mover (b : Board) (depth : Nat)
    (isMax : Bool) (α β : GomokuAI.Score)
    (h : depth = 0 ∨ b.is_game_over = true) :
    GomokuAI._minimax b depth isMax α β =
      GomokuAI.Score.ofQ (GomokuAI.evalForPlayer b b.current_player) := by
  cases depth with
  | zero => rfl
  | succ d =>
    rcases h with h | h
    · exact absurd h (Nat.succ_ne_zero d)
    · rw [GomokuAI._minimax, if_pos h]
      rfl

/-- A full board (terminal, drawn) on which the two players' static
evaluations differ; `current_player` is −1, so within a `get_move`
search this leaf sits at odd ply parity (`is_maximizing = False`,
original mover +1). -/
def parityBoard : Board :=
  mkBoardF 15 (-1) (fun i j => if (j + 2 * i) % 4 < 2 then 1 else -1)

set_option maxRecDepth 40000 in
/-- C3 as stated is false on the code: at this terminal leaf, reached
minimizing (so the root's original mover is +1), `_minimax` returns
the evaluation from the leaf mover −1's perspective (−662), not the
original mover +1's perspective (−32). -/
theorem minimax_leaf_eval_refutes_root_perspective :
    parityBoard.is_game_over = true ∧
    parityBoard.current_player = -1 ∧
    GomokuAI._minimax parityBoard 3 false ⊥ ⊤ =
      GomokuAI.Score.ofQ (GomokuAI.evalForPlayer parityBoard (-1)) ∧
    GomokuAI._minimax parityBoard 3 false ⊥ ⊤ ≠
      GomokuAI.Score.ofQ (GomokuAI.evalForPlayer parityBoard 1) := by
  refine ⟨by decide, rfl, ?_, ?_⟩
  · exact minimax_leaf_eval_is_leaf_mover parityBoard 3 false ⊥ ⊤ (Or.inr (by decide))
  · rw [minimax_leaf_eval_is_leaf_mover parityBoard 3 false ⊥ ⊤ (Or.inr (by decide))]
    with_unfolding_all decide

/-- Witness for `minimax_leaf_eval_is_leaf_mover` at depth 0. -/
theorem minimax_leaf_eval_is_leaf_mover_witness :
    GomokuAI._minimax (mkBoard 1 1 []) 0 true ⊥ ⊤ =
      GomokuAI.Score.ofQ (GomokuAI.evalForPlayer (mkBoard 1 1 []) 1) :=
  minimax_leaf_eval_is_leaf_mover (mkBoard 1 1 []) 0 true ⊥ ⊤ (Or.inl rfl)

/-! ## C2: the no-move contract on a full board -/

/-- C2 (code bug, failing input = any board with no empty cell): on the
full board `parityBoard` the minimax engine returns the no-move signal
`None` as the contract demands, but `MCTS.get_move` — whose only
non-early exit is `sorted(root.children, key=visits)[-1].move` —
reaches that subscript with an empty child list and raises
`IndexError` (modelled by `PyResult.exn`) instead of returning the
signal, even though its search loop ran. -/
theorem mcts_get_move_raises_on_full_board :
    GomokuAI.get_move 4 parityBoard = none ∧
    MCTS.get_move {} (fun _ _ => 0) 0 [0] parityBoard = PyResult.exn := by
  with_unfolding_all decide

/-! ## C1: the forced-move short-circuit at the root -/

/-- The minimax candidate list never exceeds 15 moves (an empty board
yields the center alone; otherwise the scored list is truncated). -/
theorem gomoku_valid_moves_length_le (b : Board) :
    (GomokuAI._get_valid_moves b).length ≤ 15 := by
  unfold GomokuAI._get_valid_moves
  split
  · simp
  · simp [min_le_left]

theorem mem_insortDescBy {α : Type} (lt : α → α → Bool) (x y : α) (l : List α) :
    y ∈ PyList.insortDescBy lt x l ↔ y = x ∨ y ∈ l := by
  induction l with
  | nil => simp [PyList.insortDescBy]
  | cons z zs ih =>
    rw [PyList.insortDescBy]
    split
    · simp [List.mem_cons]
    · simp only [List.mem_cons, ih]
      tauto

/-- Python's descending sort permutes its input: membership is
unchanged. -/
theorem mem_pySortDescBy {α : Type} (lt : α → α → Bool) (l : List α) (y : α) :
    y ∈ PyList.pySortDescBy lt l ↔ y ∈ l := by
  suffices h : ∀ acc : List α,
      (y ∈ l.foldl (fun a x => PyList.insortDescBy lt x a) acc ↔ y ∈ acc ∨ y ∈ l) by
    simpa [PyList.pySortDescBy] using h []
  induction l with
  | nil => simp
  | cons z zs ih =>
    intro acc
    rw [List.foldl_cons, ih (PyList.insortDescBy lt z acc), mem_insortDescBy]
    simp only [List.mem_cons]
    tauto


/-- What each outcome of `scanMoves` contains: an early return is an
immediately winning move; in a completed scan the critical moves are
exactly the blocking (and not winning) ones and the scored moves are
neither winning nor blocking. -/
theorem scanMoves_spec (b : Board) :
    ∀ (l cr : List Move) (hi no : List (ℚ × Move)),
      (∀ m ∈ cr, Node._is_winning_move b m b.current_player = false ∧
        Node._is_winning_move b m (-b.current_player) = true) →
      (∀ p ∈ hi, Node._is_winning_move b p.2 b.current_player = false ∧
        Node._is_winning_move b p.2 (-b.current_player) = false) →
      (∀ p ∈ no, Node._is_winning_move b p.2 b.current_player = false ∧
        Node._is_winning_move b p.2 (-b.current_player) = false) →
      (∀ w c h n, Node.scanMoves b l cr hi no = (some w, c, h, n) →
        Node._is_winning_move b w b.current_player = true) ∧
      (∀ c h n, Node.scanMoves b l cr hi no = (none, c, h, n) →
        (∀ m ∈ c, Node._is_winning_move b m b.current_player = false ∧
          Node._is_winning_move b m (-b.current_player) = true) ∧
        (∀ p ∈ h, Node._is_winning_move b p.2 b.current_player = false ∧
          Node._is_winning_move b p.2 (-b.current_player) = false) ∧
        (∀ p ∈ n, Node._is_winning_move b p.2 b.current_player = false ∧
          Node._is_winning_move b p.2 (-b.current_player) = false)) := by
  intro l
  induction l with
  | nil =>
    intro cr hi no hcr hhi hno
    refine ⟨?_, ?_⟩
    · intro w c h n heq
      simp [Node.scanMoves] at heq
    · intro c h n heq
      rw [Node.scanMoves] at heq
      simp only [Prod.mk.injEq, true_and] at heq
      obtain ⟨rfl, rfl, rfl⟩ := heq
      exact ⟨hcr, hhi, hno⟩
  | cons m rest ih =>
    intro cr hi no hcr hhi hno
    rw [Node.scanMoves]
    split_ifs with h1 h2 h3
    · refine ⟨?_, ?_⟩
      · intro w c h n heq
        simp only [Prod.mk.injEq, Option.some.injEq] at heq
        obtain ⟨rfl, -⟩ := heq
        exact h1
      · intro c h n heq
        simp at heq
    · refine ih (cr ++ [m]) hi no ?_ hhi hno
      intro x hx
      rcases List.mem_append.mp hx with hx | hx
      · exact hcr x hx
      · simp only [List.mem_singleton] at hx
        subst hx
        exact ⟨by simpa using h1, h2⟩
    · refine ih cr (hi ++ [(Node._evaluate_move b m, m)]) no hcr ?_ hno
      intro p hp
      rcases List.mem_append.mp hp with hp | hp
      · exact hhi p hp
      · simp only [List.mem_singleton] at hp
        subst hp
        exact ⟨by simpa using h1, by simpa using h2⟩
    · refine ih cr hi (no ++ [(Node._evaluate_move b m, m)]) hcr hhi ?_
      intro p hp
      rcases List.mem_append.mp hp with hp | hp
      · exact hno p hp
      · simp only [List.mem_singleton] at hp
        subst hp
        exact ⟨by simpa using h1, by simpa using h2⟩

/-- If an immediately winning root move exists among the minimax
candidates, `GomokuAI.get_move` returns one, whatever the depth. -/
theorem gomoku_root_win (b : Board) (maxDepth : Nat) (hsize : b.size = 15)
    (hwin : ∃ m ∈ GomokuAI._get_valid_moves b,
      GomokuAI._is_winning_move b m b.current_player = true) :
    ∃ m', GomokuAI.get_move maxDepth b = some m' ∧
      GomokuAI._is_winning_move b m' b.current_player = true := by
  obtain ⟨m, hm, hw⟩ := hwin
  have hne : (GomokuAI._get_valid_moves b).isEmpty = false := by
    rcases h : GomokuAI._get_valid_moves b with _ | ⟨a, l⟩
    · rw [h] at hm
      exact absurd hm (List.not_mem_nil m)
    · rfl
  have hlen : ¬ (GomokuAI._get_valid_moves b).length = b.size * b.size := by
    have := gomoku_valid_moves_length_le b
    rw [hsize]
    omega
  have hfind : ((GomokuAI._get_valid_moves b).find?
      (fun m => GomokuAI._is_winning_move b m b.current_player)).isSome := by
    rw [List.find?_isSome]
    exact ⟨m, hm, hw⟩
  obtain ⟨m', hm'⟩ := Option.isSome_iff_exists.mp hfind
  refine ⟨m', ?_, by simpa using List.find?_some hm'⟩
  unfold GomokuAI.get_move
  simp only [hne, hlen, hm', Bool.false_eq_true, if_false]

/-- If no immediately winning root move exists among the minimax
candidates but a blocking one does, `GomokuAI.get_move` returns a
blocking move, whatever the depth. -/
theorem gomoku_root_block (b : Board) (maxDepth : Nat) (hsize : b.size = 15)
    (hnw : ∀ m ∈ GomokuAI._get_valid_moves b,
      GomokuAI._is_winning_move b m b.current_player = false)
    (hbl : ∃ m ∈ GomokuAI._get_valid_moves b,
      GomokuAI._is_winning_move b m (-b.current_player) = true) :
    ∃ m', GomokuAI.get_move maxDepth b = some m' ∧
      GomokuAI._is_winning_move b m' (-b.current_player) = true := by
  obtain ⟨m, hm, hb⟩ := hbl
  have hne : (GomokuAI._get_valid_moves b).isEmpty = false := by
    rcases h : GomokuAI._get_valid_moves b with _ | ⟨a, l⟩
    · rw [h] at hm
      exact absurd hm (List.not_mem_nil m)
    · rfl
  have hlen : ¬ (GomokuAI._get_valid_moves b).length = b.size * b.size := by
    have := gomoku_valid_moves_length_le b
    rw [hsize]
    omega
  have hnone : (GomokuAI._get_valid_moves b).find?
      (fun m => GomokuAI._is_winning_move b m b.current_player) = none := by
    rw [List.find?_eq_none]
    intro x hx
    simp [hnw x hx]
  have hfind : ((GomokuAI._get_valid_moves b).find?
      (fun m => GomokuAI._is_winning_move b m (-b.current_player))).isSome := by
    rw [List.find?_isSome]
    exact ⟨m, hm, hb⟩
  obtain ⟨m', hm'⟩ := Option.isSome_iff_exists.mp hfind
  refine ⟨m', ?_, by simpa using List.find?_some hm'⟩
  unfold GomokuAI.get_move
  simp only [hne, hlen, hnone, hm', Bool.false_eq_true, if_false]

/-- The five shapes the untried-move list of a fresh node can take:
empty (no valid moves), the bare center (empty board), a single
immediately winning move, the nonempty critical (blocking) list, or
the truncated sorted scored moves. -/
theorem get_sorted_moves_shape (b : Board) :
    (Node._get_sorted_moves b = [] ∧ b.get_valid_moves.isEmpty = true) ∨
    Node._get_sorted_moves b = [(b.size / 2, b.size / 2)] ∨
    (∃ w c h n, Node.scanMoves b b.get_valid_moves [] [] [] = (some w, c, h, n) ∧
      Node._get_sorted_moves b = [w]) ∨
    (∃ c h n, Node.scanMoves b b.get_valid_moves [] [] [] = (none, c, h, n) ∧
      c ≠ [] ∧ Node._get_sorted_moves b = c) ∨
    (∃ c h n, Node.scanMoves b b.get_valid_moves [] [] [] = (none, c, h, n) ∧
      c = [] ∧ Node._get_sorted_moves b =
        ((PyList.pySortDescBy qmLt h).map Prod.snd ++
          (PyList.pySortDescBy qmLt n).map Prod.snd).take 10) := by
  by_cases hemp : b.get_valid_moves.isEmpty
  · exact Or.inl ⟨by simp [Node._get_sorted_moves, hemp], hemp⟩
  · by_cases hfull : b.get_valid_moves.length = b.size * b.size
    · exact Or.inr (Or.inl (by simp [Node._get_sorted_moves, hemp, hfull]))
    · rcases hscan : Node.scanMoves b b.get_valid_moves [] [] [] with ⟨ow, c, h, n⟩
      cases ow with
      | some w =>
        refine Or.inr (Or.inr (Or.inl ⟨w, c, h, n, rfl, ?_⟩))
        simp [Node._get_sorted_moves, hemp, hfull, hscan]
      | none =>
        by_cases hcrit : c.isEmpty
        · have hc0 : c = [] := by simpa [List.isEmpty_iff] using hcrit
          refine Or.inr (Or.inr (Or.inr (Or.inr ⟨c, h, n, rfl, hc0, ?_⟩)))
          simp [Node._get_sorted_moves, hemp, hfull, hscan, hcrit]
        · have hc0 : c ≠ [] := by simpa [List.isEmpty_iff] using hcrit
          refine Or.inr (Or.inr (Or.inr (Or.inl ⟨c, h, n, rfl, hc0, ?_⟩)))
          simp [Node._get_sorted_moves, hemp, hfull, hscan, hcrit]

/-- If an immediately winning move is among the MCTS root's untried
candidates, `MCTS.get_move` returns a winning move at once, whatever
the time budget and selection key. -/
theorem mcts_root_win (b : Board) (cfg : MCTS) (key : Node → Node → ℚ)
    (start : ℚ) (clock : List ℚ)
    (hwin : ∃ m ∈ Node._get_sorted_moves b,
      Node._is_winning_move b m b.current_player = true) :
    ∃ m', MCTS.get_move cfg key start clock b = PyResult.ret (some m') ∧
      Node._is_winning_move b m' b.current_player = true := by
  obtain ⟨m, hm, hw⟩ := hwin
  have spec := scanMoves_spec b b.get_valid_moves [] [] [] (by simp) (by simp) (by simp)
  have key' : ∃ m', (Node._get_sorted_moves b).find?
      (fun x => Node._is_winning_move b x b.current_player ||
        Node._is_winning_move b x (-b.current_player)) = some m' ∧
      Node._is_winning_move b m' b.current_player = true := by
    rcases get_sorted_moves_shape b with ⟨he, -⟩ | hc | ⟨w, c, h, n, hscan, he⟩ |
        ⟨c, h, n, hscan, hne, he⟩ | ⟨c, h, n, hscan, hc0, he⟩
    · rw [he] at hm
      exact absurd hm (List.not_mem_nil m)
    · rw [hc] at hm ⊢
      simp only [List.mem_singleton] at hm
      subst hm
      refine ⟨(b.size / 2, b.size / 2), ?_, hw⟩
      simp [List.find?, hw]
    · rw [he] at hm ⊢
      simp only [List.mem_singleton] at hm
      subst hm
      refine ⟨m, ?_, hw⟩
      simp [List.find?, hw]
    · rw [he] at hm
      have := ((spec.2 c h n hscan).1 m hm).1
      rw [this] at hw
      cases hw
    · rw [he] at hm
      have hm2 := (List.take_sublist 10 _).subset hm
      rcases List.mem_append.mp hm2 with hx | hx
      · obtain ⟨p, hp, rfl⟩ := List.mem_map.mp hx
        have := ((spec.2 c h n hscan).2.1 p ((mem_pySortDescBy _ _ _).mp hp)).1
        rw [this] at hw
        cases hw
      · obtain ⟨p, hp, rfl⟩ := List.mem_map.mp hx
        have := ((spec.2 c h n hscan).2.2 p ((mem_pySortDescBy _ _ _).mp hp)).1
        rw [this] at hw
        cases hw
  obtain ⟨m', hfind, hw'⟩ := key'
  refine ⟨m', ?_, hw'⟩
  unfold MCTS.get_move
  have hroot : (Node.new b none).untried_moves = Node._get_sorted_moves b := rfl
  simp only [hroot, hfind]

/-- If no immediately winning move is among the MCTS root's untried
candidates but a blocking one is, `MCTS.get_move` returns a blocking
move at once, whatever the time budget and selection key. -/
theorem mcts_root_block (b : Board) (cfg : MCTS) (key : Node → Node → ℚ)
    (start : ℚ) (clock : List ℚ)
    (hnw : ∀ m ∈ Node._get_sorted_moves b,
      Node._is_winning_move b m b.current_player = false)
    (hbl : ∃ m ∈ Node._get_sorted_moves b,
      Node._is_winning_move b m (-b.current_player) = true) :
    ∃ m', MCTS.get_move cfg key start clock b = PyResult.ret (some m') ∧
      Node._is_winning_move b m' (-b.current_player) = true := by
  obtain ⟨m, hm, hb⟩ := hbl
  have spec := scanMoves_spec b b.get_valid_moves [] [] [] (by simp) (by simp) (by simp)
  have key' : ∃ m', (Node._get_sorted_moves b).find?
      (fun x => Node._is_winning_move b x b.current_player ||
        Node._is_winning_move b x (-b.current_player)) = some m' ∧
      Node._is_winning_move b m' (-b.current_player) = true := by
    rcases get_sorted_moves_shape b with ⟨he, -⟩ | hc | ⟨w, c, h, n, hscan, he⟩ |
        ⟨c, h, n, hscan, hne, he⟩ | ⟨c, h, n, hscan, hc0, he⟩
    · rw [he] at hm
      exact absurd hm (List.not_mem_nil m)
    · rw [hc] at hm ⊢
      simp only [List.mem_singleton] at hm
      subst hm
      refine ⟨(b.size / 2, b.size / 2), ?_, hb⟩
      simp [List.find?, hb]
    · have hww := spec.1 w c h n hscan
      rw [he] at hm
      simp only [List.mem_singleton] at hm
      subst hm
      have := hnw m (by rw [he]; exact List.mem_singleton_self m)
      rw [this] at hww
      cases hww
    · rcases hx : c with _ | ⟨x, xs⟩
      · exact absurd hx hne
      · have hcx : x ∈ c := by rw [hx]; exact List.mem_cons_self x xs
        have hx1 := ((spec.2 c h n hscan).1 x hcx).1
        have hx2 := ((spec.2 c h n hscan).1 x hcx).2
        refine ⟨x, ?_, hx2⟩
        rw [he, hx]
        simp [List.find?, hx1, hx2]
    · rw [he] at hm
      have hm2 := (List.take_sublist 10 _).subset hm
      rcases List.mem_append.mp hm2 with hx | hx
      · obtain ⟨p, hp, rfl⟩ := List.mem_map.mp hx
        have := ((spec.2 c h n hscan).2.1 p ((mem_pySortDescBy _ _ _).mp hp)).2
        rw [this] at hb
        cases hb
      · obtain ⟨p, hp, rfl⟩ := List.mem_map.mp hx
        have := ((spec.2 c h n hscan).2.2 p ((mem_pySortDescBy _ _ _).mp hp)).2
        rw [this] at hb
        cases hb
  obtain ⟨m', hfind, hb'⟩ := key'
  refine ⟨m', ?_, hb'⟩
  unfold MCTS.get_move
  have hroot : (Node.new b none).untried_moves = Node._get_sorted_moves b := rfl
  simp only [hroot, hfind]

/-- C1: on every board, for any depth, time budget and selection key:
if some candidate of an engine's root move generator completes a
five-or-more run for the player to move, that engine's `get_move`
returns such a winning move; and if no candidate does but some
candidate completes a five for the opponent, it returns such a
blocking move — in both cases by the root scan, before any search. -/
theorem engines_forced_move_short_circuit (b : Board) (maxDepth : Nat)
    (cfg : MCTS) (key : Node → Node → ℚ) (start : ℚ) (clock : List ℚ)
    (hsize : b.size = 15) :
    ((∃ m ∈ GomokuAI._get_valid_moves b,
        GomokuAI._is_winning_move b m b.current_player = true) →
      ∃ m', GomokuAI.get_move maxDepth b = some m' ∧
        GomokuAI._is_winning_move b m' b.current_player = true) ∧
    ((∀ m ∈ GomokuAI._get_valid_moves b,
        GomokuAI._is_winning_move b m b.current_player = false) →
      (∃ m ∈ GomokuAI._get_valid_moves b,
        GomokuAI._is_winning_move b m (-b.current_player) = true) →
      ∃ m', GomokuAI.get_move maxDepth b = some m' ∧
        GomokuAI._is_winning_move b m' (-b.current_player) = true) ∧
    ((∃ m ∈ Node._get_sorted_moves b,
        Node._is_winning_move b m b.current_player = true) →
      ∃ m', MCTS.get_move cfg key start clock b = PyResult.ret (some m') ∧
        Node._is_winning_move b m' b.current_player = true) ∧
    ((∀ m ∈ Node._get_sorted_moves b,
        Node._is_winning_move b m b.current_player = false) →
      (∃ m ∈ Node._get_sorted_moves b,
        Node._is_winning_move b m (-b.current_player) = true) →
      ∃ m', MCTS.get_move cfg key start clock b = PyResult.ret (some m') ∧
        Node._is_winning_move b m' (-b.current_player) = true) :=
  ⟨gomoku_root_win b maxDepth hsize,
   gomoku_root_block b maxDepth hsize,
   mcts_root_win b cfg key start clock,
   mcts_root_block b cfg key start clock⟩

/-- A full board but for (0,0), (7,7) and (14,14), with four mover
stones at (7,3)–(7,6): completing at (7,7) wins for the mover. -/
def winBoard : Board :=
  mkBoardF 15 1 fun i j =>
    if (i = 0 ∧ j = 0) ∨ (i = 7 ∧ j = 7) ∨ (i = 14 ∧ j = 14) then 0
    else if i = 7 ∧ (j = 4 ∨ j = 5) then 1
    else if i = 7 ∧ j = 2 then -1
    else if (j + 2 * i) % 4 < 2 then 1 else -1

/-- Witness for `engines_forced_move_short_circuit`: on `winBoard`
both engines return an immediately winning move. -/
theorem engines_forced_move_short_circuit_witness :
    (∃ m', GomokuAI.get_move 4 winBoard = some m' ∧
      GomokuAI._is_winning_move winBoard m' winBoard.current_player = true) ∧
    (∃ m', MCTS.get_move {} (fun _ _ => 0) 0 [] winBoard = PyResult.ret (some m') ∧
      Node._is_winning_move winBoard m' winBoard.current_player = true) :=
  ⟨(engines_forced_move_short_circuit winBoard 4 {} (fun _ _ => 0) 0 [] rfl).1
      (by with_unfolding_all decide),
   (engines_forced_move_short_circuit winBoard 4 {} (fun _ _ => 0) 0 [] rfl).2.2.1
      (by with_unfolding_all decide)⟩

/-! ## C6: what bounds the search loop -/

/-- A quiet near-full board: two far-apart empty cells, no winning or
blocking placement anywhere. -/
def quietBoard : Board :=
  mkBoardF 15 1 fun i j =>
    if (i = 0 ∧ j = 0) ∨ (i = 14 ∧ j = 14) then 0
    else if (j + 2 * i) % 4 < 2 then 1 else -1



theorem updatePath_visits (f : Node → Node) (n : Node) (path : List Nat) :
    (Node.updatePath f n path).visits = (f n).visits := by
  cases path with
  | nil => rfl
  | cons i rest => simp [Node.updatePath, Node.visits]

theorem applyBackprop_visits (result cp : Int) (n : Node) :
    (Node.applyBackprop result cp n).visits = n.visits + 1 := by
  unfold Node.applyBackprop
  split_ifs <;> rfl

theorem expandF_visits (n : Node) : (Node.expandF n).visits = n.visits := by
  unfold Node.expandF
  rcases n.untried_moves with _ | ⟨mv, rest⟩
  · rfl
  · simp [Node.add_child, Node.visits]

theorem modifyAt_expand_visits (n : Node) (path : List Nat) :
    (Node.modifyAt Node.expandF n path).visits = n.visits := by
  cases path with
  | nil => exact expandF_visits n
  | cons i rest => simp [Node.modifyAt, Node.visits]

/-- Each search iteration increments the root's visit count by exactly
one: backpropagation always reaches the root. -/
theorem iterate_visits (key : Node → Node → ℚ) (root : Node) :
    (MCTS.iterate key root).tree.visits = root.visits + 1 := by
  unfold MCTS.iterate
  simp only [updatePath_visits, applyBackprop_visits]
  split_ifs with h
  · exact congrArg (· + 1) (modifyAt_expand_visits root _)
  · rfl

/-- The loop body runs exactly once per clock reading below
`end_time`, stopping at the first reading that is not. -/
theorem mctsLoop_visits (key : Node → Node → ℚ) (endt : ℚ) :
    ∀ (clock : List ℚ) (root : Node),
      (MCTS.mctsLoop key endt clock root).visits =
        root.visits + (clock.takeWhile (fun t => decide (t < endt))).length := by
  intro clock
  induction clock with
  | nil => intro root; rfl
  | cons t ts ih =>
    intro root
    rw [MCTS.mctsLoop]
    by_cases h : t < endt
    · rw [if_pos h, ih, iterate_visits, List.takeWhile_cons]
      simp [h]
      omega
    · rw [if_neg h, List.takeWhile_cons]
      simp [h]

/-- C6, corrected: the search loop of `MCTS.get_move` is bounded by the
wall clock alone.  Two configurations with the same `time_limit` make
`get_move` behave identically whatever their `max_moves` (the field is
stored but never consulted), and the number of completed simulations —
the root's visit count, since every backpropagation reaches the root —
equals the number of clock readings below `end_time`. -/
theorem mcts_loop_bounded_by_clock_alone (b : Board) (key : Node → Node → ℚ)
    (start : ℚ) (clock : List ℚ) (cfg cfg' : MCTS)
    (heq : cfg.time_limit = cfg'.time_limit) :
    MCTS.get_move cfg key start clock b = MCTS.get_move cfg' key start clock b ∧
    ∀ root : Node, (MCTS.mctsLoop key (start + cfg.time_limit) clock root).visits =
      root.visits +
        (clock.takeWhile (fun t => decide (t < start + cfg.time_limit))).length := by
  constructor
  · unfold MCTS.get_move
    rw [heq]
  · intro root
    exact mctsLoop_visits key (start + cfg.time_limit) clock root

/-- Witness for `mcts_loop_bounded_by_clock_alone`: `max_moves` 1000
and 7 give the same move on `quietBoard`, and one clock reading below
the deadline yields exactly one simulation. -/
theorem mcts_loop_bounded_by_clock_alone_witness :
    MCTS.get_move { time_limit := 5, max_moves := 1000 } (fun _ _ => 0) 0 [0] quietBoard =
      MCTS.get_move { time_limit := 5, max_moves := 7 } (fun _ _ => 0) 0 [0] quietBoard ∧
    (MCTS.mctsLoop (fun _ _ => 0) ((0 : ℚ) + 5) [0] (Node.new quietBoard none)).visits =
      (Node.new quietBoard none).visits +
        (([0] : List ℚ).takeWhile (fun t => decide (t < (0 : ℚ) + 5))).length := by
  have h := mcts_loop_bounded_by_clock_alone quietBoard (fun _ _ => 0) 0 [0]
    { time_limit := 5, max_moves := 1000 } { time_limit := 5, max_moves := 7 } rfl
  exact ⟨h.1, h.2 (Node.new quietBoard none)⟩

/-- C6 as stated is false on the code: with `max_moves = 1` and two
clock readings inside the budget, the loop completes two simulations —
the configured maximum simulation count does not cap the loop. -/
theorem mcts_sim_count_exceeds_max_moves :
    (MCTS.mk 5 1).max_moves = 1 ∧
    (MCTS.mctsLoop (fun _ _ => 0) ((0 : ℚ) + (MCTS.mk 5 1).time_limit) [0, 1]
      (Node.new quietBoard none)).visits = 2 := by
  refine ⟨rfl, ?_⟩
  with_unfolding_all decide

/-! ## C4: the value backpropagation adds -/

theorem getD_set_self {α : Type} :
    ∀ (l : List α) (i : Nat) (a d : α), i < l.length → (l.set i a).getD i d = a
  | [], i, a, d, h => absurd h (by simp)
  | _ :: _, 0, _, _, _ => rfl
  | _ :: xs, i + 1, a, d, h => getD_set_self xs i a d (by simpa using h)

theorem set_of_length_le {α : Type} :
    ∀ (l : List α) (i : Nat) (a : α), l.length ≤ i → l.set i a = l
  | [], _, _, _ => rfl
  | x :: xs, 0, a, h => absurd h (by simp)
  | x :: xs, i + 1, a, h => congrArg (x :: ·) (set_of_length_le xs i a (by simpa using h))

theorem applyBackprop_board (result cp : Int) (n : Node) :
    (Node.applyBackprop result cp n).board = n.board := by
  unfold Node.applyBackprop
  split_ifs <;> rfl

theorem applyBackprop_children (result cp : Int) (n : Node) :
    (Node.applyBackprop result cp n).children = n.children := by
  unfold Node.applyBackprop
  split_ifs <;> rfl

/-- Backpropagation does not move nodes: the board found at the end of
the updated path is the board that was there before the update, for
any per-node update that keeps boards and child lists. -/
theorem nodeAt_updatePath_board (f : Node → Node)
    (hb : ∀ m, (f m).board = m.board) (hc : ∀ m, (f m).children = m.children) :
    ∀ (path : List Nat) (n : Node),
      (Node.nodeAt (Node.updatePath f n path) path).board =
        (Node.nodeAt n path).board := by
  intro path
  induction path with
  | nil => intro n; exact hb n
  | cons i rest ih =>
    intro n
    have hgoalR : (Node.nodeAt n (i :: rest)).board =
        (Node.nodeAt (n.children.getD i default) rest).board := rfl
    by_cases hlen : i < (f n).children.length
    · have h1 : (Node.updatePath f n (i :: rest)).children.getD i default =
          Node.updatePath f ((f n).children.getD i default) rest := by
        simp only [Node.updatePath, Node.children]
        exact getD_set_self _ i _ _ hlen
      have h2 : (Node.nodeAt (Node.updatePath f n (i :: rest)) (i :: rest)).board =
          (Node.nodeAt (Node.updatePath f ((f n).children.getD i default) rest)
            rest).board := by
        rw [Node.nodeAt, h1]
      rw [h2, ih ((f n).children.getD i default), hgoalR, hc n]
    · have hno : (f n).children.set i
          (Node.updatePath f ((f n).children.getD i default) rest) =
          (f n).children :=
        set_of_length_le _ i _ (le_of_not_lt hlen)
      have h2 : (Node.nodeAt (Node.updatePath f n (i :: rest)) (i :: rest)).board =
          (Node.nodeAt ((f n).children.getD i default) rest).board := by
        rw [Node.nodeAt]
        show (Node.nodeAt (((f n).children.set i
          (Node.updatePath f ((f n).children.getD i default) rest)).getD i default)
          rest).board = _
        rw [hno]
      rw [h2, hgoalR, hc n]

/-- The single value one iteration's backpropagation adds at every node
of its path: 0.5 on a draw, 1 when the rollout winner equals the
captured `current_player`, 0 otherwise. -/
def backpropValue (result cp : Int) : ℚ :=
  if result = 0 then 1 / 2 else if result = cp then 1 else 0

/-- C4, corrected: backpropagation applies `update` with one and the
same value at every node of the path — 0.5 on a drawn rollout, 1.0
when the rollout winner equals `current_player` as captured from the
**expanded node's** board (the player to move there), 0.0 otherwise —
and the `cp` an iteration compares against is precisely the
current player of the board at the end of the backpropagation path,
not the root's original mover. -/
theorem backprop_value_uniform_from_expanded_mover (key : Node → Node → ℚ)
    (root : Node) (result cp : Int) (n : Node) :
    Node.applyBackprop result cp n = n.update (backpropValue result cp) ∧
    (result = 0 → backpropValue result cp = 1 / 2) ∧
    (result ≠ 0 → result = cp → backpropValue result cp = 1) ∧
    (result ≠ 0 → result ≠ cp → backpropValue result cp = 0) ∧
    (MCTS.iterate key root).cp =
      (Node.nodeAt (MCTS.iterate key root).tree
        (MCTS.iterate key root).path).board.current_player := by
  refine ⟨?_, ?_, ?_, ?_, ?_⟩
  · unfold Node.applyBackprop backpropValue
    split_ifs <;> rfl
  · intro h; simp [backpropValue, h]
  · intro h1 h2
    subst h2
    simp [backpropValue, h1]
  · intro h1 h2
    simp [backpropValue, h1, h2]
  · unfold MCTS.iterate
    exact (congrArg Board.current_player
      (nodeAt_updatePath_board _ (applyBackprop_board _ _)
        (applyBackprop_children _ _) _ _)).symm

/-- A board already holding a five for player 1 (row 0), player 1 to
move, with two far-away empty cells; no single placement creates a
five through the placed cell, so the root scan finds nothing. -/
def wonBoard : Board :=
  mkBoardF 15 1 fun i j =>
    if (i = 14 ∧ j = 0) ∨ (i = 14 ∧ j = 14) then 0
    else if i = 0 ∧ j ≤ 4 then 1
    else if i = 0 ∧ j = 5 then -1
    else if (j + 2 * i) % 4 < 2 then 1 else -1

/-- C4 as stated is false on the code: in the first search iteration on
`wonBoard` (reached by `get_move`'s loop, the root scan returning
nothing), the rollout winner is 1 — the root's original mover — so the
claim demands 1.0 be added along the path, but the captured
`current_player` is the expanded child's mover −1, and the root's
accumulated wins after the iteration are 0. -/
theorem backprop_refutes_root_mover_perspective :
    wonBoard.current_player = 1 ∧
    ((Node.new wonBoard none).untried_moves.find? (fun m =>
      Node._is_winning_move wonBoard m wonBoard.current_player ||
        Node._is_winning_move wonBoard m (-wonBoard.current_player))) = none ∧
    MCTS.mctsLoop (fun _ _ => 0) ((0 : ℚ) + 5) [0] (Node.new wonBoard none) =
      (MCTS.iterate (fun _ _ => 0) (Node.new wonBoard none)).tree ∧
    (MCTS.iterate (fun _ _ => 0) (Node.new wonBoard none)).result = 1 ∧
    (MCTS.iterate (fun _ _ => 0) (Node.new wonBoard none)).cp = -1 ∧
    (MCTS.iterate (fun _ _ => 0) (Node.new wonBoard none)).tree.wins = 0 ∧
    (MCTS.iterate (fun _ _ => 0) (Node.new wonBoard none)).tree.visits = 1 := by
  refine ⟨rfl, by with_unfolding_all decide, by with_unfolding_all rfl,
    by with_unfolding_all decide, by with_unfolding_all decide,
    by with_unfolding_all decide, by with_unfolding_all decide⟩

/-! ## C7: the final move choice -/

namespace PyList

variable {α β : Type} [LinearOrder β]

/-- The element `sorted(l, key=key)[-1]` denotes: of all elements with
the maximal key, the one appearing last in `l` (stability of `sorted`
keeps equal keys in input order, so the last of the ascending sort is
the last maximum). -/
def latestMax (key : α → β) (l : List α) : Option α :=
  l.foldl (fun acc x => match acc with
    | none => some x
    | some b => if key b ≤ key x then some x else some b) none

theorem insortKey_ne_nil (key : α → β) (x : α) (l : List α) :
    insortKey key x l ≠ [] := by
  cases l with
  | nil => simp [insortKey]
  | cons y ys =>
    rw [insortKey]
    split <;> simp

theorem mem_insortKey (key : α → β) (x y : α) (l : List α) :
    y ∈ insortKey key x l ↔ y = x ∨ y ∈ l := by
  induction l with
  | nil => simp [insortKey]
  | cons z zs ih =>
    rw [insortKey]
    split
    · simp [List.mem_cons]
    · simp only [List.mem_cons, ih]
      tauto

theorem insortKey_sorted (key : α → β) (x : α) (l : List α)
    (h : l.Sorted (fun a b => key a ≤ key b)) :
    (insortKey key x l).Sorted (fun a b => key a ≤ key b) := by
  induction l with
  | nil => simp [insortKey]
  | cons y ys ih =>
    rw [insortKey]
    rw [List.sorted_cons] at h
    split_ifs with hxy
    · rw [List.sorted_cons]
      refine ⟨?_, List.sorted_cons.mpr h⟩
      intro b hb
      rcases List.mem_cons.mp hb with rfl | hb
      · exact le_of_lt hxy
      · exact le_trans (le_of_lt hxy) (h.1 b hb)
    · rw [List.sorted_cons]
      refine ⟨?_, ih h.2⟩
      intro b hb
      rcases (mem_insortKey key x b ys).mp hb with rfl | hb
      · exact le_of_not_lt hxy
      · exact h.1 b hb

theorem sorted_le_getLast? (key : α → β) :
    ∀ (l : List α) (z : α), l.Sorted (fun a b => key a ≤ key b) →
      l.getLast? = some z → ∀ w ∈ l, key w ≤ key z
  | [], z, _, hlast, w, hw => absurd hw (List.not_mem_nil w)
  | [a], z, _, hlast, w, hw => by
    simp only [List.getLast?_singleton, Option.some.injEq] at hlast
    simp only [List.mem_singleton] at hw
    subst hlast hw
    exact le_refl _
  | a :: b :: t, z, hs, hlast, w, hw => by
    rw [List.getLast?_cons_cons] at hlast
    rw [List.sorted_cons] at hs
    rcases List.mem_cons.mp hw with rfl | hw
    · have hz : z ∈ b :: t := List.mem_of_getLast?_eq_some hlast
      exact hs.1 z hz
    · exact sorted_le_getLast? key (b :: t) z hs.2 hlast w hw

theorem getLast?_insortKey (key : α → β) :
    ∀ (l : List α) (x : α), l.Sorted (fun a b => key a ≤ key b) →
      (insortKey key x l).getLast? =
        some (match l.getLast? with
          | none => x
          | some z => if key z ≤ key x then x else z) := by
  intro l
  induction l with
  | nil => intro x _; rfl
  | cons y ys ih =>
    intro x hs
    rw [List.sorted_cons] at hs
    rw [insortKey]
    split_ifs with hxy
    · rw [List.getLast?_cons_cons]
      rcases hlast : (y :: ys).getLast? with _ | z
      · simp at hlast
      · have hz : z ∈ y :: ys := List.mem_of_getLast?_eq_some hlast
        have hyz : key y ≤ key z := by
          rcases List.mem_cons.mp hz with rfl | hz'
          · exact le_refl _
          · exact hs.1 z hz'
        have hzx : ¬ key z ≤ key x := fun hle =>
          absurd (lt_of_lt_of_le hxy (le_trans hyz hle)) (lt_irrefl _)
        simp [hlast, hzx]
    · have hne := insortKey_ne_nil key x ys
      have hcons : (y :: insortKey key x ys).getLast? =
          (insortKey key x ys).getLast? := by
        rcases h : insortKey key x ys with _ | ⟨c, t⟩
        · exact absurd h hne
        · rw [List.getLast?_cons_cons]
      rw [hcons, ih x hs.2]
      rcases ys with _ | ⟨c, t⟩
      · simp [le_of_not_lt hxy]
      · rw [List.getLast?_cons_cons]

theorem pySortedKey_sorted (key : α → β) (l : List α) :
    (pySortedKey key l).Sorted (fun a b => key a ≤ key b) := by
  suffices h : ∀ acc, acc.Sorted (fun a b => key a ≤ key b) →
      (l.foldl (fun a x => insortKey key x a) acc).Sorted
        (fun a b => key a ≤ key b) from h [] (by simp)
  induction l with
  | nil => intro acc h; simpa using h
  | cons z zs ih =>
    intro acc h
    rw [List.foldl_cons]
    exact ih _ (insortKey_sorted key z acc h)

theorem mem_pySortedKey (key : α → β) (l : List α) (y : α) :
    y ∈ pySortedKey key l ↔ y ∈ l := by
  suffices h : ∀ acc : List α,
      (y ∈ l.foldl (fun a x => insortKey key x a) acc ↔ y ∈ acc ∨ y ∈ l) by
    simpa [pySortedKey] using h []
  induction l with
  | nil => simp
  | cons z zs ih =>
    intro acc
    rw [List.foldl_cons, ih (insortKey key z acc), mem_insortKey]
    simp only [List.mem_cons]
    tauto

/-- The last element of the stable ascending sort is the latest-inserted
maximum. -/
theorem getLast?_pySortedKey (key : α → β) (l : List α) :
    (pySortedKey key l).getLast? = latestMax key l := by
  induction l using List.reverseRecOn with
  | nil => rfl
  | append_singleton l x ih =>
    have h1 : pySortedKey key (l ++ [x]) = insortKey key x (pySortedKey key l) := by
      unfold pySortedKey
      rw [List.foldl_append]
      rfl
    have h2 : latestMax key (l ++ [x]) = (match latestMax key l with
        | none => some x
        | some b => if key b ≤ key x then some x else some b) := by
      unfold latestMax
      rw [List.foldl_append]
      rfl
    rw [h1, getLast?_insortKey key _ x (pySortedKey_sorted key l), ih, h2]
    rcases latestMax key l with _ | b
    · rfl
    · dsimp only
      split_ifs <;> rfl

theorem latestMax_isSome (key : α → β) (l : List α) (h : l ≠ []) :
    (latestMax key l).isSome := by
  rw [← getLast?_pySortedKey]
  rw [List.getLast?_isSome]
  intro hempty
  rcases l with _ | ⟨a, t⟩
  · exact h rfl
  · have : a ∈ pySortedKey key (a :: t) :=
      (mem_pySortedKey key (a :: t) a).mpr (List.mem_cons_self a t)
    rw [hempty] at this
    exact List.not_mem_nil a this

theorem latestMax_is_max (key : α → β) (l : List α) (z : α)
    (hz : latestMax key l = some z) : ∀ w ∈ l, key w ≤ key z := by
  intro w hw
  have h1 := getLast?_pySortedKey key l
  rw [hz] at h1
  exact sorted_le_getLast? key (pySortedKey key l) z (pySortedKey_sorted key l)
    h1 w ((mem_pySortedKey key l w).mpr hw)

end PyList

/-- C7: when the root scan finds no forced move and the search loop
leaves the root with at least one child, `get_move` returns the move
of the root child `sorted(children, key=visits)[-1]`: a child of
maximal visit count, deterministically tie-broken by insertion
(expansion) order — the last-expanded child among those with maximal
visits, by stability of the ascending sort. -/
theorem mcts_final_choice_is_latest_max_visits (b : Board) (cfg : MCTS)
    (key : Node → Node → ℚ) (start : ℚ) (clock : List ℚ)
    (hroot : ((Node.new b none).untried_moves.find? (fun m =>
      Node._is_winning_move b m b.current_player ||
        Node._is_winning_move b m (-b.current_player))) = none)
    (hchild : (MCTS.mctsLoop key (start + cfg.time_limit) clock
      (Node.new b none)).children.isEmpty = false) :
    ∃ c, PyList.latestMax (fun n : Node => n.visits)
        (MCTS.mctsLoop key (start + cfg.time_limit) clock
          (Node.new b none)).children = some c ∧
      MCTS.get_move cfg key start clock b = PyResult.ret c.move ∧
      ∀ d ∈ (MCTS.mctsLoop key (start + cfg.time_limit) clock
        (Node.new b none)).children, d.visits ≤ c.visits := by
  have hne : (MCTS.mctsLoop key (start + cfg.time_limit) clock
      (Node.new b none)).children ≠ [] := by
    intro h
    rw [h] at hchild
    simp at hchild
  obtain ⟨c, hc⟩ := Option.isSome_iff_exists.mp
    (PyList.latestMax_isSome (fun n : Node => n.visits) _ hne)
  refine ⟨c, hc, ?_, fun d hd =>
    PyList.latestMax_is_max (fun n : Node => n.visits) _ c hc d hd⟩
  have hlast : (PyList.pySortedKey (fun c : Node => c.visits)
      (MCTS.mctsLoop key (start + cfg.time_limit) clock
        (Node.new b none)).children).getLast? = some c := by
    rw [PyList.getLast?_pySortedKey]
    exact hc
  unfold MCTS.get_move
  simp only [hroot, hlast]

/-- Witness for `mcts_final_choice_is_latest_max_visits`: a one-reading
budget on `quietBoard` leaves one root child, whose move is returned. -/
theorem mcts_final_choice_is_latest_max_visits_witness :
    ∃ c, PyList.latestMax (fun n : Node => n.visits)
        (MCTS.mctsLoop (fun _ _ => 0) ((0 : ℚ) + ({} : MCTS).time_limit) [0]
          (Node.new quietBoard none)).children = some c ∧
      MCTS.get_move {} (fun _ _ => 0) 0 [0] quietBoard = PyResult.ret c.move ∧
      ∀ d ∈ (MCTS.mctsLoop (fun _ _ => 0) ((0 : ℚ) + ({} : MCTS).time_limit) [0]
        (Node.new quietBoard none)).children, d.visits ≤ c.visits :=
  mcts_final_choice_is_latest_max_visits quietBoard {} (fun _ _ => 0) 0 [0]
    (by with_unfolding_all decide) (by with_unfolding_all decide)

/-! ## C10: visit counts at `select_child` invocations -/

theorem getD_of_length_le {α : Type} :
    ∀ (l : List α) (i : Nat) (d : α), l.length ≤ i → l.getD i d = d
  | [], i, d, _ => by cases i <;> rfl
  | x :: xs, 0, d, h => absurd h (by simp)
  | x :: xs, i + 1, d, h => getD_of_length_le xs i d (by simpa using h)

theorem getD_mem {α : Type} :
    ∀ (l : List α) (i : Nat) (d : α), i < l.length → l.getD i d ∈ l
  | [], i, d, h => absurd h (by simp)
  | x :: xs, 0, d, _ => List.mem_cons_self x xs
  | x :: xs, i + 1, d, h =>
    List.mem_cons_of_mem x (getD_mem xs i d (by simpa using h))

theorem getD_append_length {α : Type} :
    ∀ (l : List α) (a d : α), (l ++ [a]).getD l.length d = a
  | [], _, _ => rfl
  | _ :: xs, a, d => getD_append_length xs a d

theorem set_append_length {α : Type} :
    ∀ (l : List α) (a b : α), (l ++ [a]).set l.length b = l ++ [b]
  | [], _, _ => rfl
  | x :: xs, a, b => congrArg (x :: ·) (set_append_length xs a b)

theorem mem_set_cases {α : Type} :
    ∀ (l : List α) (i : Nat) (a x : α), x ∈ l.set i a → x = a ∨ x ∈ l
  | [], _, _, _, h => Or.inr (by simp at h)
  | y :: ys, 0, a, x, h => by
    rcases List.mem_cons.mp h with rfl | h
    · exact Or.inl rfl
    · exact Or.inr (List.mem_cons_of_mem y h)
  | y :: ys, i + 1, a, x, h => by
    rcases List.mem_cons.mp h with rfl | h
    · exact Or.inr (List.mem_cons_self x ys)
    · rcases mem_set_cases ys i a x h with h | h
      · exact Or.inl h
      · exact Or.inr (List.mem_cons_of_mem y h)

/-- The record of the Selection descent's `select_child` invocations:
for each node on which `select_child` runs (no untried moves, some
children), its own visit count and its children's visit counts — the
quantities UCB1 divides by and takes the logarithm of.  The descent
mirrors `Node.selectPath` step for step. -/
def Node.selectTrace (key : Node → Node → ℚ) : Nat → Node → List (Nat × List Nat)
  | 0, _ => []
  | fuel + 1, n =>
    if n.untried_moves.isEmpty && !n.children.isEmpty then
      (n.visits, n.children.map Node.visits) ::
        Node.selectTrace key fuel
          (n.children.getD (Node.selectChildIdx (key n) n.children) default)
    else []

/-- The trace records exactly the nodes the Selection descent visits. -/
theorem selectTrace_matches_selectPath (key : Node → Node → ℚ) :
    ∀ (fuel : Nat) (n : Node),
      (Node.selectTrace key fuel n).length = (Node.selectPath key fuel n).length := by
  intro fuel
  induction fuel with
  | zero => intro n; rfl
  | succ fuel ih =>
    intro n
    rw [Node.selectTrace, Node.selectPath]
    split_ifs
    · simp [ih]
    · rfl

/-- The invariant the search loop maintains: every child node anywhere
in the tree has been visited at least once (it was backpropagated
through when it was expanded), and every node that has children has
been visited at least once. -/
inductive TreeInv : Node → Prop
  | mk (n : Node) :
      (∀ c ∈ n.children, TreeInv c) →
      (∀ c ∈ n.children, 1 ≤ c.visits) →
      (n.children ≠ [] → 1 ≤ n.visits) →
      TreeInv n

theorem TreeInv.children_inv {n : Node} (h : TreeInv n) :
    ∀ c ∈ n.children, TreeInv c := by
  cases h with
  | mk _ h1 _ _ => exact h1

theorem TreeInv.children_visits {n : Node} (h : TreeInv n) :
    ∀ c ∈ n.children, 1 ≤ c.visits := by
  cases h with
  | mk _ _ h2 _ => exact h2

theorem TreeInv.self_visits {n : Node} (h : TreeInv n) :
    n.children ≠ [] → 1 ≤ n.visits := by
  cases h with
  | mk _ _ _ h3 => exact h3

theorem selectTrace_default (key : Node → Node → ℚ) (fuel : Nat) :
    Node.selectTrace key fuel default = [] := by
  cases fuel <;> rfl

/-- Under the invariant, every `select_child` invocation of the descent
sees a node visited at least once whose children are each visited at
least once. -/
theorem selectTrace_safe (key : Node → Node → ℚ) :
    ∀ (fuel : Nat) (n : Node), TreeInv n →
      ∀ e ∈ Node.selectTrace key fuel n, 1 ≤ e.1 ∧ ∀ v ∈ e.2, 1 ≤ v := by
  intro fuel
  induction fuel with
  | zero => intro n _ e he; simp [Node.selectTrace] at he
  | succ fuel ih =>
    intro n hInv e he
    rw [Node.selectTrace] at he
    split_ifs at he with hcond
    · have hchild : n.children ≠ [] := by
        intro h0
        rw [h0] at hcond
        simp at hcond
      rcases List.mem_cons.mp he with rfl | he'
      · refine ⟨hInv.self_visits hchild, ?_⟩
        intro v hv
        obtain ⟨c, hc, rfl⟩ := List.mem_map.mp hv
        exact hInv.children_visits c hc
      · by_cases hlt : Node.selectChildIdx (key n) n.children < n.children.length
        · exact ih _ (hInv.children_inv _ (getD_mem _ _ _ hlt)) e he'
        · rw [getD_of_length_le _ _ _ (le_of_not_lt hlt),
            selectTrace_default] at he'
          exact absurd he' (List.not_mem_nil e)
    · exact absurd he (List.not_mem_nil e)

theorem TreeInv_of_no_children {n : Node} (h : n.children = []) : TreeInv n :=
  TreeInv.mk n (fun c hc => absurd (h ▸ hc) (List.not_mem_nil c))
    (fun c hc => absurd (h ▸ hc) (List.not_mem_nil c))
    (fun hne => absurd h hne)

theorem TreeInv_default : TreeInv default := TreeInv_of_no_children rfl

theorem TreeInv_new (b : Board) (mv : Option Move) : TreeInv (Node.new b mv) :=
  TreeInv_of_no_children rfl

/-- Updating statistics along a path — with any per-node update that
keeps child lists and never decreases visit counts — preserves the
tree invariant. -/
theorem TreeInv_updatePath (f : Node → Node)
    (hv : ∀ m, m.visits ≤ (f m).visits)
    (hc : ∀ m, (f m).children = m.children) :
    ∀ (path : List Nat) (n : Node), TreeInv n →
      TreeInv (Node.updatePath f n path) := by
  intro path
  induction path with
  | nil =>
    intro n h
    show TreeInv (f n)
    refine TreeInv.mk _ ?_ ?_ ?_
    · rw [hc n]
      exact h.children_inv
    · rw [hc n]
      exact h.children_visits
    · rw [hc n]
      intro hne
      exact le_trans (h.self_visits hne) (hv n)
  | cons i rest ih =>
    intro n h
    have hch : (Node.updatePath f n (i :: rest)).children =
        (f n).children.set i
          (Node.updatePath f ((f n).children.getD i default) rest) := rfl
    have hvi : (Node.updatePath f n (i :: rest)).visits = (f n).visits := rfl
    by_cases hlt : i < n.children.length
    · refine TreeInv.mk _ ?_ ?_ ?_
      · rw [hch, hc n]
        intro c hcm
        rcases mem_set_cases _ _ _ _ hcm with rfl | hcm
        · exact ih _ (h.children_inv _ (getD_mem _ _ _ hlt))
        · exact h.children_inv c hcm
      · rw [hch, hc n]
        intro c hcm
        rcases mem_set_cases _ _ _ _ hcm with rfl | hcm
        · rw [updatePath_visits]
          exact le_trans (h.children_visits _ (getD_mem _ _ _ hlt)) (hv _)
        · exact h.children_visits c hcm
      · rw [hch, hc n, hvi]
        intro hne
        refine le_trans (h.self_visits ?_) (hv n)
        intro h0
        rw [h0] at hne
        simp at hne
    · have hnoop : (f n).children.set i
          (Node.updatePath f ((f n).children.getD i default) rest) =
          n.children := by
        rw [hc n]
        exact set_of_length_le _ i _ (le_of_not_lt hlt)
      refine TreeInv.mk _ ?_ ?_ ?_
      · rw [hch, hnoop]
        exact h.children_inv
      · rw [hch, hnoop]
        exact h.children_visits
      · rw [hch, hnoop, hvi]
        intro hne
        exact le_trans (h.self_visits hne) (hv n)

/-- One Expansion (attaching the fresh child at the end of the
selection path) followed by Backpropagation along the extended path
re-establishes the invariant: the fresh, zero-visit child is the last
node of the backpropagation path and receives its first visit before
the iteration ends. -/
theorem TreeInv_expand_update (g : Node → Node)
    (hg : ∀ m, (g m).visits = m.visits + 1)
    (hc : ∀ m, (g m).children = m.children) :
    ∀ (path : List Nat) (n : Node), TreeInv n →
      TreeInv (Node.updatePath g (Node.modifyAt Node.expandF n path)
        (path ++ [(Node.nodeAt n path).children.length])) := by
  intro path
  induction path with
  | nil =>
    intro n h
    rcases hu : n.untried_moves with _ | ⟨mv, rest⟩
    · have hX : Node.modifyAt Node.expandF n [] = n := by
        show Node.expandF n = n
        unfold Node.expandF
        rw [hu]
      rw [hX]
      exact TreeInv_updatePath g (fun m => by rw [hg m]; omega) hc
        [(Node.nodeAt n []).children.length] n h
    · have hX : Node.modifyAt Node.expandF n [] = n.add_child mv := by
        show Node.expandF n = _
        unfold Node.expandF
        rw [hu]
      rw [hX]
      have hgetD : ((g (n.add_child mv)).children).getD
          (Node.nodeAt n []).children.length default =
          Node.new (n.board.make_move mv) (some mv) := by
        rw [hc]
        exact getD_append_length n.children _ _
      have hch : (Node.updatePath g (n.add_child mv)
          ([] ++ [(Node.nodeAt n []).children.length])).children =
          n.children ++
            [Node.updatePath g (Node.new (n.board.make_move mv) (some mv)) []] := by
        show ((g (n.add_child mv)).children).set (Node.nodeAt n []).children.length
          (Node.updatePath g (((g (n.add_child mv)).children).getD
            (Node.nodeAt n []).children.length default) []) = _
        rw [hgetD, hc]
        exact set_append_length n.children _ _
      refine TreeInv.mk _ ?_ ?_ ?_
      · rw [hch]
        intro c hcm
        rcases List.mem_append.mp hcm with hcm | hcm
        · exact h.children_inv c hcm
        · rw [List.mem_singleton] at hcm
          subst hcm
          show TreeInv (g (Node.new (n.board.make_move mv) (some mv)))
          exact TreeInv_of_no_children (by rw [hc]; rfl)
      · rw [hch]
        intro c hcm
        rcases List.mem_append.mp hcm with hcm | hcm
        · exact h.children_visits c hcm
        · rw [List.mem_singleton] at hcm
          subst hcm
          show 1 ≤ (g (Node.new (n.board.make_move mv) (some mv))).visits
          rw [hg]
          omega
      · intro _
        show 1 ≤ (g (n.add_child mv)).visits
        rw [hg]
        omega
  | cons i rest ih =>
    intro n h
    have hmod : (Node.modifyAt Node.expandF n (i :: rest)).children =
        n.children.set i
          (Node.modifyAt Node.expandF (n.children.getD i default) rest) := rfl
    by_cases hlt : i < n.children.length
    · have hgetD : ((g (Node.modifyAt Node.expandF n (i :: rest))).children).getD
          i default =
          Node.modifyAt Node.expandF (n.children.getD i default) rest := by
        rw [hc, hmod]
        exact getD_set_self _ _ _ _ hlt
      have hch : (Node.updatePath g (Node.modifyAt Node.expandF n (i :: rest))
          ((i :: rest) ++ [(Node.nodeAt n (i :: rest)).children.length])).children =
          n.children.set i (Node.updatePath g
            (Node.modifyAt Node.expandF (n.children.getD i default) rest)
            (rest ++ [(Node.nodeAt (n.children.getD i default) rest).children.length])) := by
        show ((g (Node.modifyAt Node.expandF n (i :: rest))).children).set i
          (Node.updatePath g
            (((g (Node.modifyAt Node.expandF n (i :: rest))).children).getD i default)
            (rest ++ [(Node.nodeAt n (i :: rest)).children.length])) = _
        rw [hgetD, hc, hmod, List.set_set]
        rfl
      refine TreeInv.mk _ ?_ ?_ ?_
      · rw [hch]
        intro c hcm
        rcases mem_set_cases _ _ _ _ hcm with rfl | hcm
        · exact ih _ (h.children_inv _ (getD_mem _ _ _ hlt))
        · exact h.children_inv c hcm
      · rw [hch]
        intro c hcm
        rcases mem_set_cases _ _ _ _ hcm with rfl | hcm
        · rw [updatePath_visits, hg]
          omega
        · exact h.children_visits c hcm
      · intro _
        show 1 ≤ (g (Node.modifyAt Node.expandF n (i :: rest))).visits
        rw [hg]
        omega
    · have hXc : (Node.modifyAt Node.expandF n (i :: rest)).children = n.children := by
        rw [hmod]
        exact set_of_length_le _ _ _ (le_of_not_lt hlt)
      have hch : (Node.updatePath g (Node.modifyAt Node.expandF n (i :: rest))
          ((i :: rest) ++ [(Node.nodeAt n (i :: rest)).children.length])).children =
          n.children := by
        show ((g (Node.modifyAt Node.expandF n (i :: rest))).children).set i
          (Node.updatePath g
            (((g (Node.modifyAt Node.expandF n (i :: rest))).children).getD i default)
            (rest ++ [(Node.nodeAt n (i :: rest)).children.length])) = _
        rw [hc, hXc]
        exact set_of_length_le _ _ _ (le_of_not_lt hlt)
      refine TreeInv.mk _ ?_ ?_ ?_
      · rw [hch]
        exact h.children_inv
      · rw [hch]
        exact h.children_visits
      · intro _
        show 1 ≤ (g (Node.modifyAt Node.expandF n (i :: rest))).visits
        rw [hg]
        omega

/-- One whole search iteration preserves the tree invariant. -/
theorem TreeInv_iterate (key : Node → Node → ℚ) (root : Node) (h : TreeInv root) :
    TreeInv (MCTS.iterate key root).tree := by
  unfold MCTS.iterate
  by_cases hexp : (Node.nodeAt root
      (Node.selectPath key (root.board.size * root.board.size + 1) root)).untried_moves.isEmpty
  · have hcond : (!(Node.nodeAt root
        (Node.selectPath key (root.board.size * root.board.size + 1)
          root)).untried_moves.isEmpty) = false := by
      rw [hexp]
      rfl
    simp only [hcond, Bool.false_eq_true, if_false]
    exact TreeInv_updatePath _ (fun m => by rw [applyBackprop_visits]; omega)
      (applyBackprop_children _ _) _ root h
  · have hcond : (!(Node.nodeAt root
        (Node.selectPath key (root.board.size * root.board.size + 1)
          root)).untried_moves.isEmpty) = true := by
      rw [Bool.not_eq_true']
      exact Bool.eq_false_iff.mpr hexp
    simp only [hcond, if_true]
    exact TreeInv_expand_update _ (applyBackprop_visits _ _)
      (applyBackprop_children _ _) _ root h

/-- The whole time-boxed loop preserves the tree invariant. -/
theorem TreeInv_loop (key : Node → Node → ℚ) (endt : ℚ) :
    ∀ (clock : List ℚ) (root : Node), TreeInv root →
      TreeInv (MCTS.mctsLoop key endt clock root) := by
  intro clock
  induction clock with
  | nil => intro root h; exact h
  | cons t ts ih =>
    intro root h
    rw [MCTS.mctsLoop]
    split_ifs
    · exact ih _ (TreeInv_iterate key root h)
    · exact h

/-- C10: at any point of any `MCTS.get_move` run — any prefix of the
clock, any descent depth — every `select_child` invocation of the
Selection descent happens at a node whose own visit count is at least
1 and all of whose children have visit counts of at least 1, so the
UCB1 expression divides by no zero and takes the logarithm of a count
of at least 1. -/
theorem select_child_sees_positive_visits (b : Board) (cfg : MCTS)
    (key : Node → Node → ℚ) (start : ℚ) (pre : List ℚ) (fuel : Nat)
    (e : Nat × List Nat)
    (he : e ∈ Node.selectTrace key fuel
      (MCTS.mctsLoop key (start + cfg.time_limit) pre (Node.new b none))) :
    1 ≤ e.1 ∧ ∀ v ∈ e.2, 1 ≤ v :=
  selectTrace_safe key fuel _
    (TreeInv_loop key (start + cfg.time_limit) pre _ (TreeInv_new b none)) e he

/-- A full board but for the single empty cell (14,14). -/
def oneBoard : Board :=
  mkBoardF 15 1 fun i j =>
    if i = 14 ∧ j = 14 then 0
    else if (j + 2 * i) % 4 < 2 then 1 else -1

/-- Witness for `select_child_sees_positive_visits`: after one
simulation on `oneBoard` the next descent invokes `select_child` once,
at the root, seeing visit count 1 and one child of visit count 1. -/
theorem select_child_sees_positive_visits_witness :
    ((1, [1]) ∈ Node.selectTrace (fun _ _ => 0) 3
      (MCTS.mctsLoop (fun _ _ => 0) ((0 : ℚ) + ({} : MCTS).time_limit) [0]
        (Node.new oneBoard none))) ∧
    1 ≤ ((1, [1]) : Nat × List Nat).1 ∧
      ∀ v ∈ ((1, [1]) : Nat × List Nat).2, 1 ≤ v :=
  ⟨by with_unfolding_all decide,
   select_child_sees_positive_visits oneBoard {} (fun _ _ => 0) 0 [0] 3 (1, [1])
     (by with_unfolding_all decide)⟩

/-! ## C9: alpha-beta pruning against the plain recursion

`minimaxPlain`, `rootLoopPlain` and `get_movePlain` are the claim's
comparison recursion — `_minimax` with the `beta <= alpha` break
removed, over the same candidate generator — written from the claim's
words, to be compared with the source's `_minimax`/`get_move`.  With
the break gone, alpha and beta influence nothing and are dropped. -/

def minimaxPlain : Board → Nat → Bool → GomokuAI.Score
  | b, 0, _ => GomokuAI.Score.ofQ (GomokuAI._evaluate_board b)
  | b, depth + 1, isMax =>
    if b.is_game_over then GomokuAI.Score.ofQ (GomokuAI._evaluate_board b)
    else
      let valid := GomokuAI._get_valid_moves b
      if isMax then
        valid.foldl
          (fun m mv => max m (minimaxPlain (b.make_move mv) depth false)) ⊥
      else
        valid.foldl
          (fun m mv => min m (minimaxPlain (b.make_move mv) depth true)) ⊤

def rootLoopPlain (b : Board) (max_depth : Nat) :
    List Move → Option Move → GomokuAI.Score → Option Move
  | [], best_move, _ => best_move
  | mv :: rest, best_move, best_score =>
    let score := minimaxPlain (b.make_move mv) (max_depth - 1) false
    let p := if best_score < score then (some mv, score) else (best_move, best_score)
    rootLoopPlain b max_depth rest p.1 p.2

def get_movePlain (max_depth : Nat) (b : Board) : Option Move :=
  let valid_moves := GomokuAI._get_valid_moves b
  if valid_moves.isEmpty then none
  else if valid_moves.length = b.size * b.size then
    some (b.size / 2, b.size / 2)
  else
    match valid_moves.find? (fun m => GomokuAI._is_winning_move b m b.current_player) with
    | some m => some m
    | none =>
      match valid_moves.find? (fun m => GomokuAI._is_winning_move b m (-b.current_player)) with
      | some m => some m
      | none => rootLoopPlain b max_depth valid_moves none ⊥

theorem foldl_max_init {α : Type} (g : α → GomokuAI.Score) :
    ∀ (l : List α) (s : GomokuAI.Score),
      l.foldl (fun a x => max a (g x)) s = max s (l.foldl (fun a x => max a (g x)) ⊥) := by
  intro l
  induction l with
  | nil => intro s; exact (max_eq_left bot_le).symm
  | cons x xs ih =>
    intro s
    rw [List.foldl_cons, List.foldl_cons, ih (max s (g x)), ih (max ⊥ (g x))]
    rw [max_comm ⊥ (g x), max_eq_left bot_le, max_assoc]

theorem foldl_min_init {α : Type} (g : α → GomokuAI.Score) :
    ∀ (l : List α) (s : GomokuAI.Score),
      l.foldl (fun a x => min a (g x)) s = min s (l.foldl (fun a x => min a (g x)) ⊤) := by
  intro l
  induction l with
  | nil => intro s; exact (min_eq_left le_top).symm
  | cons x xs ih =>
    intro s
    rw [List.foldl_cons, List.foldl_cons, ih (min s (g x)), ih (min ⊤ (g x))]
    rw [min_comm ⊤ (g x), min_eq_left le_top, min_assoc]

/-- Knuth–Moore fail-soft bounds for the maximizing move loop: with a
proper window (`a₀ < β`) and running maximum at most alpha, the pruned
loop (1) never drops below its entry maximum, (2) stays at or below
alpha — without dropping below `max m₀ W` — when the plain maximum `W`
of the children does, (3) reaches at least beta — without overshooting
`max m₀ W` — when `W` does, and (4) computes exactly `max m₀ W` when
`W` lies strictly inside the window. -/
theorem abMaxLoop_spec (b : Board) (β : GomokuAI.Score)
    (rec : Board → GomokuAI.Score → GomokuAI.Score → GomokuAI.Score)
    (val : Board → GomokuAI.Score) :
    ∀ (ms : List Move) (m₀ a₀ : GomokuAI.Score), a₀ < β → m₀ ≤ a₀ →
      (∀ mv ∈ ms, ∀ a : GomokuAI.Score, a < β →
        (val (b.make_move mv) ≤ a → rec (b.make_move mv) a β ≤ a ∧
          val (b.make_move mv) ≤ rec (b.make_move mv) a β) ∧
        (β ≤ val (b.make_move mv) → β ≤ rec (b.make_move mv) a β ∧
          rec (b.make_move mv) a β ≤ val (b.make_move mv)) ∧
        (a < val (b.make_move mv) → val (b.make_move mv) < β →
          rec (b.make_move mv) a β = val (b.make_move mv))) →
      m₀ ≤ GomokuAI.abMaxLoop rec b β ms m₀ a₀ ∧
      (ms.foldl (fun acc x => max acc (val (b.make_move x))) ⊥ ≤ a₀ →
        GomokuAI.abMaxLoop rec b β ms m₀ a₀ ≤ a₀ ∧
        max m₀ (ms.foldl (fun acc x => max acc (val (b.make_move x))) ⊥) ≤
          GomokuAI.abMaxLoop rec b β ms m₀ a₀) ∧
      (β ≤ ms.foldl (fun acc x => max acc (val (b.make_move x))) ⊥ →
        β ≤ GomokuAI.abMaxLoop rec b β ms m₀ a₀ ∧
        GomokuAI.abMaxLoop rec b β ms m₀ a₀ ≤
          max m₀ (ms.foldl (fun acc x => max acc (val (b.make_move x))) ⊥)) ∧
      (a₀ < ms.foldl (fun acc x => max acc (val (b.make_move x))) ⊥ →
        ms.foldl (fun acc x => max acc (val (b.make_move x))) ⊥ < β →
        GomokuAI.abMaxLoop rec b β ms m₀ a₀ =
          max m₀ (ms.foldl (fun acc x => max acc (val (b.make_move x))) ⊥)) := by
  intro ms
  induction ms with
  | nil =>
    intro m₀ a₀ hab hma _
    refine ⟨le_refl _, fun _ => ⟨hma, max_le (le_refl _) bot_le⟩,
      fun h => ?_, fun h1 _ => ?_⟩
    · exact absurd (lt_of_lt_of_le hab h) (not_lt.mpr bot_le)
    · exact absurd h1 (not_lt.mpr bot_le)
  | cons mv rest ih =>
    intro m₀ a₀ hab hma hrec
    have hrec' := fun x hx => hrec x (List.mem_cons_of_mem mv hx)
    have hspec := hrec mv (List.mem_cons_self mv rest) a₀ hab
    have hwfold : (mv :: rest).foldl (fun acc x => max acc (val (b.make_move x))) ⊥ =
        max (val (b.make_move mv))
          (rest.foldl (fun acc x => max acc (val (b.make_move x))) ⊥) := by
      rw [List.foldl_cons, foldl_max_init (fun x => val (b.make_move x))]
      rw [max_comm ⊥ (val (b.make_move mv)), max_eq_left bot_le]
    rw [GomokuAI.abMaxLoop, hwfold]
    set v₁ := val (b.make_move mv) with hv₁
    set e := rec (b.make_move mv) a₀ β with he
    set Wrest := rest.foldl (fun acc x => max acc (val (b.make_move x))) ⊥ with hWrest
    show m₀ ≤ (if β ≤ max a₀ e then max m₀ e
        else GomokuAI.abMaxLoop rec b β rest (max m₀ e) (max a₀ e)) ∧ _
    rcases le_or_lt v₁ a₀ with hc1 | hgt
    · have he1 : e ≤ a₀ := (hspec.1 hc1).1
      have hve : v₁ ≤ e := (hspec.1 hc1).2
      have hα : max a₀ e = a₀ := max_eq_left he1
      have hnb : ¬ β ≤ max a₀ e := by
        rw [hα]
        exact not_le.mpr hab
      rw [if_neg hnb, hα]
      have hm1 : max m₀ e ≤ a₀ := max_le hma he1
      obtain ⟨ihQ0, ihQ1, ihQ2, ihQ3⟩ := ih (max m₀ e) a₀ hab hm1 hrec'
      refine ⟨le_trans (le_max_left m₀ e) ihQ0, ?_, ?_, ?_⟩
      · intro h
        obtain ⟨h1, h2⟩ := ihQ1 (le_trans (le_max_right v₁ Wrest) h)
        refine ⟨h1, le_trans ?_ h2⟩
        exact max_le (le_trans (le_max_left m₀ e) (le_max_left _ _))
          (max_le (le_trans hve (le_trans (le_max_right m₀ e) (le_max_left _ _)))
            (le_max_right _ _))
      · intro h
        have hv₁β : ¬ β ≤ v₁ := not_le.mpr (lt_of_le_of_lt hc1 hab)
        have hβW : β ≤ Wrest := (le_max_iff.mp h).resolve_left hv₁β
        obtain ⟨h1, h2⟩ := ihQ2 hβW
        refine ⟨h1, le_trans h2 ?_⟩
        have heW : e ≤ Wrest := le_trans he1 (le_trans (le_of_lt hab) hβW)
        exact max_le
          (max_le (le_max_left _ _)
            (le_trans heW (le_trans (le_max_right v₁ Wrest) (le_max_right m₀ _))))
          (le_trans (le_max_right v₁ Wrest) (le_max_right m₀ _))
      · intro h1 h2
        have haW : a₀ < Wrest := by
          rcases lt_max_iff.mp h1 with h | h
          · exact absurd h (not_lt.mpr hc1)
          · exact h
        have hWβ : Wrest < β := lt_of_le_of_lt (le_max_right v₁ Wrest) h2
        rw [ihQ3 haW hWβ]
        rw [max_assoc, max_eq_right (le_of_lt (lt_of_le_of_lt he1 haW)),
          max_eq_right (le_of_lt (lt_of_le_of_lt hc1 haW))]
    · rcases lt_or_le v₁ β with hlt | hge
      · have he2 : e = v₁ := hspec.2.2 hgt hlt
        have hα : max a₀ e = v₁ := by
          rw [he2]
          exact max_eq_right (le_of_lt hgt)
        have hnb : ¬ β ≤ max a₀ e := by
          rw [hα]
          exact not_le.mpr hlt
        rw [if_neg hnb, hα]
        have hm1 : max m₀ e ≤ v₁ := by
          rw [he2]
          exact max_le (le_trans hma (le_of_lt hgt)) (le_refl _)
        obtain ⟨ihQ0, ihQ1, ihQ2, ihQ3⟩ := ih (max m₀ e) v₁ hlt hm1 hrec'
        refine ⟨le_trans (le_max_left m₀ e) ihQ0, ?_, ?_, ?_⟩
        · intro h
          exact absurd (lt_of_lt_of_le hgt (le_trans (le_max_left v₁ Wrest) h))
            (lt_irrefl a₀)
        · intro h
          have hv₁β : ¬ β ≤ v₁ := not_le.mpr hlt
          have hβW : β ≤ Wrest := (le_max_iff.mp h).resolve_left hv₁β
          obtain ⟨h1, h2⟩ := ihQ2 hβW
          refine ⟨h1, le_trans h2 ?_⟩
          rw [he2, max_assoc]
        · intro h1 h2
          rcases le_or_lt Wrest v₁ with hWv | hvW
          · have hR1 : GomokuAI.abMaxLoop rec b β rest (max m₀ e) v₁ ≤ v₁ :=
              (ihQ1 hWv).1
            have hR2 : v₁ ≤ GomokuAI.abMaxLoop rec b β rest (max m₀ e) v₁ :=
              le_trans (by rw [he2]; exact le_max_right m₀ v₁) ihQ0
            rw [le_antisymm hR1 hR2, max_eq_left hWv,
              max_eq_right (le_trans hma (le_of_lt hgt))]
          · have hWβ : Wrest < β := lt_of_le_of_lt (le_max_right v₁ Wrest) h2
            rw [ihQ3 hvW hWβ, he2, max_assoc]
      · obtain ⟨he3, he4⟩ := hspec.2.1 hge
        have hb : β ≤ max a₀ e := le_trans he3 (le_max_right a₀ e)
        rw [if_pos hb]
        refine ⟨le_max_left m₀ e, ?_, ?_, ?_⟩
        · intro h
          have : v₁ ≤ a₀ := le_trans (le_max_left v₁ Wrest) h
          exact absurd (lt_of_lt_of_le hab hge) (not_lt.mpr this)
        · intro _
          refine ⟨le_trans he3 (le_max_right m₀ e), ?_⟩
          exact max_le (le_max_left _ _)
            (le_trans he4 (le_trans (le_max_left v₁ Wrest) (le_max_right m₀ _)))
        · intro _ h2
          exact absurd (lt_of_le_of_lt (le_trans hge (le_max_left v₁ Wrest)) h2)
            (lt_irrefl β)

/-- Dual fail-soft bounds for the minimizing move loop: with a proper
window (`α < β₀`) and running minimum at least beta, the pruned loop
(1) never rises above its entry minimum, (2) stays at or above beta —
without exceeding `min m₀ W` — when the plain minimum `W` of the
children does, (3) drops to alpha or below — without undershooting
`min m₀ W` — when `W` does, and (4) computes exactly `min m₀ W` when
`W` lies strictly inside the window. -/
theorem abMinLoop_spec (b : Board) (α : GomokuAI.Score)
    (rec : Board → GomokuAI.Score → GomokuAI.Score → GomokuAI.Score)
    (val : Board → GomokuAI.Score) :
    ∀ (ms : List Move) (m₀ β₀ : GomokuAI.Score), α < β₀ → β₀ ≤ m₀ →
      (∀ mv ∈ ms, ∀ β : GomokuAI.Score, α < β →
        (β ≤ val (b.make_move mv) → β ≤ rec (b.make_move mv) α β ∧
          rec (b.make_move mv) α β ≤ val (b.make_move mv)) ∧
        (val (b.make_move mv) ≤ α → rec (b.make_move mv) α β ≤ α ∧
          val (b.make_move mv) ≤ rec (b.make_move mv) α β) ∧
        (α < val (b.make_move mv) → val (b.make_move mv) < β →
          rec (b.make_move mv) α β = val (b.make_move mv))) →
      GomokuAI.abMinLoop rec b α ms m₀ β₀ ≤ m₀ ∧
      (β₀ ≤ ms.foldl (fun acc x => min acc (val (b.make_move x))) ⊤ →
        β₀ ≤ GomokuAI.abMinLoop rec b α ms m₀ β₀ ∧
        GomokuAI.abMinLoop rec b α ms m₀ β₀ ≤
          min m₀ (ms.foldl (fun acc x => min acc (val (b.make_move x))) ⊤)) ∧
      (ms.foldl (fun acc x => min acc (val (b.make_move x))) ⊤ ≤ α →
        GomokuAI.abMinLoop rec b α ms m₀ β₀ ≤ α ∧
        min m₀ (ms.foldl (fun acc x => min acc (val (b.make_move x))) ⊤) ≤
          GomokuAI.abMinLoop rec b α ms m₀ β₀) ∧
      (α < ms.foldl (fun acc x => min acc (val (b.make_move x))) ⊤ →
        ms.foldl (fun acc x => min acc (val (b.make_move x))) ⊤ < β₀ →
        GomokuAI.abMinLoop rec b α ms m₀ β₀ =
          min m₀ (ms.foldl (fun acc x => min acc (val (b.make_move x))) ⊤)) := by
  intro ms
  induction ms with
  | nil =>
    intro m₀ β₀ hab hma _
    refine ⟨le_refl _, fun _ => ⟨hma, le_min (le_refl _) le_top⟩,
      fun h => ?_, fun _ h2 => ?_⟩
    · exact absurd (lt_of_le_of_lt h hab) (not_lt.mpr le_top)
    · exact absurd h2 (not_lt.mpr le_top)
  | cons mv rest ih =>
    intro m₀ β₀ hab hma hrec
    have hrec' := fun x hx => hrec x (List.mem_cons_of_mem mv hx)
    have hspec := hrec mv (List.mem_cons_self mv rest) β₀ hab
    have hwfold : (mv :: rest).foldl (fun acc x => min acc (val (b.make_move x))) ⊤ =
        min (val (b.make_move mv))
          (rest.foldl (fun acc x => min acc (val (b.make_move x))) ⊤) := by
      rw [List.foldl_cons, foldl_min_init (fun x => val (b.make_move x))]
      rw [min_comm ⊤ (val (b.make_move mv)), min_eq_left le_top]
    rw [GomokuAI.abMinLoop, hwfold]
    set v₁ := val (b.make_move mv) with hv₁
    set e := rec (b.make_move mv) α β₀ with he
    set Wrest := rest.foldl (fun acc x => min acc (val (b.make_move x))) ⊤ with hWrest
    show (if min β₀ e ≤ α then min m₀ e
        else GomokuAI.abMinLoop rec b α rest (min m₀ e) (min β₀ e)) ≤ m₀ ∧ _
    rcases le_or_lt β₀ v₁ with hc1 | hlt
    · have he1 : β₀ ≤ e := (hspec.1 hc1).1
      have hev : e ≤ v₁ := (hspec.1 hc1).2
      have hβ : min β₀ e = β₀ := min_eq_left he1
      have hnb : ¬ min β₀ e ≤ α := by
        rw [hβ]
        exact not_le.mpr hab
      rw [if_neg hnb, hβ]
      have hm1 : β₀ ≤ min m₀ e := le_min hma he1
      obtain ⟨ihQ0, ihQ1, ihQ2, ihQ3⟩ := ih (min m₀ e) β₀ hab hm1 hrec'
      refine ⟨le_trans ihQ0 (min_le_left m₀ e), ?_, ?_, ?_⟩
      · intro h
        obtain ⟨h1, h2⟩ := ihQ1 (le_trans h (min_le_right v₁ Wrest))
        refine ⟨h1, le_trans h2 ?_⟩
        exact le_min (le_trans (min_le_left _ _) (min_le_left m₀ e))
          (le_min (le_trans (min_le_left _ _) (le_trans (min_le_right m₀ e) hev))
            (min_le_right _ _))
      · intro h
        have hv₁α : ¬ v₁ ≤ α := not_le.mpr (lt_of_lt_of_le hab hc1)
        have hWα : Wrest ≤ α := (min_le_iff.mp h).resolve_left hv₁α
        obtain ⟨h1, h2⟩ := ihQ2 hWα
        refine ⟨h1, le_trans ?_ h2⟩
        have hWe : Wrest ≤ e := le_trans hWα (le_trans (le_of_lt hab) he1)
        exact le_min
          (le_min (min_le_left _ _)
            (le_trans (le_trans (min_le_right m₀ _) (min_le_right v₁ Wrest)) hWe))
          (le_trans (min_le_right m₀ _) (min_le_right v₁ Wrest))
      · intro h1 h2
        have hWβ : Wrest < β₀ := by
          rcases min_lt_iff.mp h2 with h | h
          · exact absurd h (not_lt.mpr hc1)
          · exact h
        have hαW : α < Wrest := lt_of_lt_of_le h1 (min_le_right v₁ Wrest)
        rw [ihQ3 hαW hWβ]
        rw [min_assoc, min_eq_right (le_of_lt (lt_of_lt_of_le hWβ he1)),
          min_eq_right (le_of_lt (lt_of_lt_of_le hWβ hc1))]
    · rcases lt_or_le α v₁ with hgt | hge
      · have he2 : e = v₁ := hspec.2.2 hgt hlt
        have hβ : min β₀ e = v₁ := by
          rw [he2]
          exact min_eq_right (le_of_lt hlt)
        have hnb : ¬ min β₀ e ≤ α := by
          rw [hβ]
          exact not_le.mpr hgt
        rw [if_neg hnb, hβ]
        have hm1 : v₁ ≤ min m₀ e := by
          rw [he2]
          exact le_min (le_trans (le_of_lt hlt) hma) (le_refl _)
        obtain ⟨ihQ0, ihQ1, ihQ2, ihQ3⟩ := ih (min m₀ e) v₁ hgt hm1 hrec'
        refine ⟨le_trans ihQ0 (min_le_left m₀ e), ?_, ?_, ?_⟩
        · intro h
          exact absurd (lt_of_le_of_lt (le_trans h (min_le_left v₁ Wrest)) hlt)
            (lt_irrefl β₀)
        · intro h
          have hv₁α : ¬ v₁ ≤ α := not_le.mpr hgt
          have hWα : Wrest ≤ α := (min_le_iff.mp h).resolve_left hv₁α
          obtain ⟨h1, h2⟩ := ihQ2 hWα
          refine ⟨h1, le_trans ?_ h2⟩
          rw [he2, min_assoc]
        · intro h1 h2
          rcases le_or_lt v₁ Wrest with hWv | hvW
          · have hR1 : v₁ ≤ GomokuAI.abMinLoop rec b α rest (min m₀ e) v₁ :=
              (ihQ1 hWv).1
            have hR2 : GomokuAI.abMinLoop rec b α rest (min m₀ e) v₁ ≤ v₁ :=
              le_trans ihQ0 (by rw [he2]; exact min_le_right m₀ v₁)
            rw [le_antisymm hR2 hR1, min_eq_left hWv,
              min_eq_right (le_trans (le_of_lt hlt) hma)]
          · have hαW : α < Wrest := lt_of_lt_of_le h1 (min_le_right v₁ Wrest)
            rw [ihQ3 hαW hvW, he2, min_assoc]
      · obtain ⟨he3, he4⟩ := hspec.2.1 hge
        have hb : min β₀ e ≤ α := le_trans (min_le_right β₀ e) he3
        rw [if_pos hb]
        refine ⟨min_le_left m₀ e, ?_, ?_, ?_⟩
        · intro h
          have : β₀ ≤ v₁ := le_trans h (min_le_left v₁ Wrest)
          exact absurd (lt_of_le_of_lt hge hab) (not_lt.mpr this)
        · intro _
          refine ⟨le_trans (min_le_right m₀ e) he3, ?_⟩
          exact le_min (min_le_left _ _)
            (le_trans (le_trans (min_le_right m₀ _) (min_le_left v₁ Wrest)) he4)
        · intro h1 _
          exact absurd (lt_of_lt_of_le h1 (le_trans (min_le_left v₁ Wrest) hge))
            (lt_irrefl α)

/-- The Knuth–Moore fail-soft relation between the pruned search and
the plain recursion, at every proper window `α < β`: the pruned value
agrees with the plain value whenever the latter is strictly inside the
window, and bounds it from the correct side on fail-low / fail-high. -/
theorem minimax_km (depth : Nat) :
    ∀ (b : Board) (isMax : Bool) (α β : GomokuAI.Score), α < β →
      (minimaxPlain b depth isMax ≤ α →
        GomokuAI._minimax b depth isMax α β ≤ α ∧
        minimaxPlain b depth isMax ≤ GomokuAI._minimax b depth isMax α β) ∧
      (β ≤ minimaxPlain b depth isMax →
        β ≤ GomokuAI._minimax b depth isMax α β ∧
        GomokuAI._minimax b depth isMax α β ≤ minimaxPlain b depth isMax) ∧
      (α < minimaxPlain b depth isMax → minimaxPlain b depth isMax < β →
        GomokuAI._minimax b depth isMax α β = minimaxPlain b depth isMax) := by
  induction depth with
  | zero =>
    intro b isMax α β _
    exact ⟨fun h => ⟨h, le_refl _⟩, fun h => ⟨h, le_refl _⟩, fun _ _ => rfl⟩
  | succ d ih =>
    intro b isMax α β hαβ
    by_cases hgo : b.is_game_over
    · have hA : GomokuAI._minimax b (d + 1) isMax α β =
          GomokuAI.Score.ofQ (GomokuAI._evaluate_board b) := by
        rw [GomokuAI._minimax, if_pos hgo]
      have hv : minimaxPlain b (d + 1) isMax =
          GomokuAI.Score.ofQ (GomokuAI._evaluate_board b) := by
        rw [minimaxPlain, if_pos hgo]
      rw [hA, hv]
      exact ⟨fun h => ⟨h, le_refl _⟩, fun h => ⟨h, le_refl _⟩, fun _ _ => rfl⟩
    · cases isMax with
      | true =>
        have hA : GomokuAI._minimax b (d + 1) true α β =
            GomokuAI.abMaxLoop (fun b' α' β' => GomokuAI._minimax b' d false α' β')
              b β (GomokuAI._get_valid_moves b) ⊥ α := by
          rw [GomokuAI._minimax, if_neg hgo]
          rfl
        have hv : minimaxPlain b (d + 1) true =
            (GomokuAI._get_valid_moves b).foldl
              (fun m mv => max m (minimaxPlain (b.make_move mv) d false)) ⊥ := by
          rw [minimaxPlain, if_neg hgo]
          rfl
        rw [hA, hv]
        obtain ⟨_, q1, q2, q3⟩ := abMaxLoop_spec b β
          (fun b' α' β' => GomokuAI._minimax b' d false α' β')
          (fun b' => minimaxPlain b' d false)
          (GomokuAI._get_valid_moves b) ⊥ α hαβ bot_le
          (fun mv _ a ha => ih (b.make_move mv) false a β ha)
        refine ⟨fun h => ?_, fun h => ?_, fun h1 h2 => ?_⟩
        · obtain ⟨r1, r2⟩ := q1 h
          exact ⟨r1, le_trans (le_max_right ⊥ _) r2⟩
        · obtain ⟨r1, r2⟩ := q2 h
          exact ⟨r1, le_trans r2 (max_le bot_le (le_refl _))⟩
        · exact (q3 h1 h2).trans (max_eq_right bot_le)
      | false =>
        have hA : GomokuAI._minimax b (d + 1) false α β =
            GomokuAI.abMinLoop (fun b' α' β' => GomokuAI._minimax b' d true α' β')
              b α (GomokuAI._get_valid_moves b) ⊤ β := by
          rw [GomokuAI._minimax, if_neg hgo]
          rfl
        have hv : minimaxPlain b (d + 1) false =
            (GomokuAI._get_valid_moves b).foldl
              (fun m mv => min m (minimaxPlain (b.make_move mv) d true)) ⊤ := by
          rw [minimaxPlain, if_neg hgo]
          rfl
        rw [hA, hv]
        obtain ⟨_, q1, q2, q3⟩ := abMinLoop_spec b α
          (fun b' α' β' => GomokuAI._minimax b' d true α' β')
          (fun b' => minimaxPlain b' d true)
          (GomokuAI._get_valid_moves b) ⊤ β hαβ le_top
          (fun mv _ bb hb =>
            ⟨(ih (b.make_move mv) true α bb hb).2.1,
             (ih (b.make_move mv) true α bb hb).1,
             (ih (b.make_move mv) true α bb hb).2.2⟩)
        refine ⟨fun h => ?_, fun h => ?_, fun h1 h2 => ?_⟩
        · obtain ⟨r1, r2⟩ := q2 h
          exact ⟨r1, le_trans (le_min le_top (le_refl _)) r2⟩
        · obtain ⟨r1, r2⟩ := q1 h
          exact ⟨r1, le_trans r2 (min_le_right ⊤ _)⟩
        · exact (q3 h1 h2).trans (min_eq_right le_top)

/-- At the full window `(-inf, +inf)` the pruned search equals the
plain recursion. -/
theorem minimax_ab_eq_plain (depth : Nat) (b : Board) (isMax : Bool) :
    GomokuAI._minimax b depth isMax ⊥ ⊤ = minimaxPlain b depth isMax := by
  obtain ⟨q1, q2, q3⟩ := minimax_km depth b isMax ⊥ ⊤ bot_lt_top
  rcases eq_or_lt_of_le (bot_le : (⊥ : GomokuAI.Score) ≤ minimaxPlain b depth isMax)
    with hb | hb
  · obtain ⟨r1, _⟩ := q1 (le_of_eq hb.symm)
    exact (le_bot_iff.mp r1).trans hb
  · rcases eq_or_lt_of_le (le_top : minimaxPlain b depth isMax ≤ (⊤ : GomokuAI.Score))
      with ht | ht
    · obtain ⟨r1, _⟩ := q2 (le_of_eq ht.symm)
      exact (top_le_iff.mp r1).trans ht.symm
    · exact q3 hb ht

/-- One unfold step of the pruned root loop, with the pair selection
pushed into the components. -/
theorem rootLoop_cons (b : Board) (md : Nat) (mv : Move) (rest : List Move)
    (bm : Option Move) (bs α : GomokuAI.Score) :
    GomokuAI.rootLoop b md (mv :: rest) bm bs α =
      GomokuAI.rootLoop b md rest
        (if bs < GomokuAI._minimax (b.make_move mv) (md - 1) false α ⊤ then some mv
          else bm)
        (if bs < GomokuAI._minimax (b.make_move mv) (md - 1) false α ⊤ then
          GomokuAI._minimax (b.make_move mv) (md - 1) false α ⊤ else bs)
        (max α (if bs < GomokuAI._minimax (b.make_move mv) (md - 1) false α ⊤ then
          GomokuAI._minimax (b.make_move mv) (md - 1) false α ⊤ else bs)) := by
  rw [GomokuAI.rootLoop]
  by_cases h : bs < GomokuAI._minimax (b.make_move mv) (md - 1) false α ⊤
  · simp only [if_pos h]
  · simp only [if_neg h]

/-- One unfold step of the plain root loop. -/
theorem rootLoopPlain_cons (b : Board) (md : Nat) (mv : Move) (rest : List Move)
    (bm : Option Move) (bs : GomokuAI.Score) :
    rootLoopPlain b md (mv :: rest) bm bs =
      rootLoopPlain b md rest
        (if bs < minimaxPlain (b.make_move mv) (md - 1) false then some mv else bm)
        (if bs < minimaxPlain (b.make_move mv) (md - 1) false then
          minimaxPlain (b.make_move mv) (md - 1) false else bs) := by
  rw [rootLoopPlain]
  by_cases h : bs < minimaxPlain (b.make_move mv) (md - 1) false
  · simp only [if_pos h]
  · simp only [if_neg h]

/-- The pruned root loop, run with alpha equal to the running best
score (as `get_move` does from `(-inf, -inf)`), picks the same move as
the plain root loop. -/
theorem rootLoop_eq_plain (b : Board) (md : Nat) :
    ∀ (ms : List Move) (bm : Option Move) (bs : GomokuAI.Score),
      GomokuAI.rootLoop b md ms bm bs bs = rootLoopPlain b md ms bm bs := by
  intro ms
  induction ms with
  | nil =>
    intro bm bs
    rfl
  | cons mv rest ih =>
    intro bm bs
    rw [rootLoop_cons, rootLoopPlain_cons]
    rcases eq_or_lt_of_le (le_top : bs ≤ (⊤ : GomokuAI.Score)) with hb | hb
    · have h1 : ¬ bs < GomokuAI._minimax (b.make_move mv) (md - 1) false bs ⊤ := by
        rw [hb]
        exact not_top_lt
      have h2 : ¬ bs < minimaxPlain (b.make_move mv) (md - 1) false := by
        rw [hb]
        exact not_top_lt
      rw [if_neg h1, if_neg h1, if_neg h2, if_neg h2, max_self]
      exact ih bm bs
    · obtain ⟨q1, q2, q3⟩ := minimax_km (md - 1) (b.make_move mv) false bs ⊤ hb
      set v := minimaxPlain (b.make_move mv) (md - 1) false with hv
      set A := GomokuAI._minimax (b.make_move mv) (md - 1) false bs ⊤ with hA
      rcases le_or_lt v bs with hle | hlt
      · obtain ⟨r1, _⟩ := q1 hle
        rw [if_neg (not_lt.mpr r1), if_neg (not_lt.mpr r1), if_neg (not_lt.mpr hle),
          if_neg (not_lt.mpr hle), max_self]
        exact ih bm bs
      · rcases eq_or_lt_of_le (le_top : v ≤ (⊤ : GomokuAI.Score)) with ht | ht
        · obtain ⟨r1, _⟩ := q2 (le_of_eq ht.symm)
          have hAv : A = v := (top_le_iff.mp r1).trans ht.symm
          have hc1 : bs < A := by
            rw [hAv]
            exact hlt
          rw [if_pos hc1, if_pos hc1, if_pos hlt, if_pos hlt,
            max_eq_right (le_of_lt hc1), hAv]
          exact ih (some mv) v
        · have hAv : A = v := q3 hlt ht
          have hc1 : bs < A := by
            rw [hAv]
            exact hlt
          rw [if_pos hc1, if_pos hc1, if_pos hlt, if_pos hlt,
            max_eq_right (le_of_lt hc1), hAv]
          exact ih (some mv) v

/-- `get_move` with pruning equals `get_move` without pruning: the
guard branches are shared, and the root loops agree. -/
theorem get_move_ab_eq_plain (md : Nat) (b : Board) :
    GomokuAI.get_move md b = get_movePlain md b := by
  have hroot := rootLoop_eq_plain b md (GomokuAI._get_valid_moves b) none ⊥
  rw [GomokuAI.get_move, get_movePlain]
  simp only [hroot]

/-- C9: for every board and depth, the alpha-beta-pruned minimax
recursion started with alpha = -infinity and beta = +infinity returns
the same value as the identical recursion with the pruning cutoff
(the `beta <= alpha` break) removed (`minimaxPlain`), over the same
candidate-move generator; hence the root `get_move` returns the same
move with and without pruning. -/
theorem alphabeta_equals_plain_minimax :
    (∀ (b : Board) (depth : Nat) (isMax : Bool),
      GomokuAI._minimax b depth isMax ⊥ ⊤ = minimaxPlain b depth isMax) ∧
    (∀ (max_depth : Nat) (b : Board),
      GomokuAI.get_move max_depth b = get_movePlain max_depth b) :=
  ⟨fun b depth isMax => minimax_ab_eq_plain depth b isMax,
   fun md b => get_move_ab_eq_plain md b⟩
